import Mathlib

/-!
Shallow embedding of the streaming git-log/diff parser of this repository
(`parseLog` and `parseHunks`, the richer truncation-aware variant, together
with the reader primitives they use).  Byte streams are lists of characters;
a stream additionally records whether the underlying reader fails with a
non-EOF I/O error once its data is exhausted.  Machine strings are `List Char`;
Go runtime panics (index out of range, nil-pointer dereference) are modelled
by a distinguished `crashed` result.  Each loop of the Go code becomes a
fuelled structurally-recursive function; the top-level wrappers supply
`data.length + 1` fuel, which always suffices because every loop iteration
either terminates or consumes at least one character.

Go's `[]*Commit` holds pointers, so in principle the code could mutate a
commit after appending it (it only does so on degenerate streams that contain
a second diff section for the same commit); this value-level embedding
snapshots the commit at append time.  None of the statements below concern
such streams.
-/

set_option maxRecDepth 40000

namespace OutputParser

/-- Characters of a string literal, used to write byte streams readably. -/
def S (s : String) : List Char := s.data

/-- Go errors as seen by the parser: `io.EOF`, a non-EOF I/O error from the
underlying reader, and an error wrapped by `fmt.Errorf` (never equal to
`io.EOF`). -/
inductive GoErr where
  | eof
  | ioError
  | wrapped (e : GoErr)
deriving DecidableEq, Repr

/-- The input stream: remaining bytes, plus whether reads past the end of the
data fail with a non-EOF I/O error (`errAtEnd = true`) or report `io.EOF`
(`errAtEnd = false`). -/
structure ByteStream where
  data : List Char
  errAtEnd : Bool := false
deriving DecidableEq, Repr

/-- The error produced when reading past the end of the stream. -/
def endErr (s : ByteStream) : GoErr := if s.errAtEnd then .ioError else .eof

/-- Split off the first line, including its trailing newline; `none` when the
data holds no newline. -/
def takeLine : List Char → Option (List Char × List Char)
  | [] => none
  | c :: cs =>
    if c = '\n' then some ([c], cs)
    else
      match takeLine cs with
      | none => none
      | some (l, r) => some (c :: l, r)

/-- Model of `bufio.Reader.ReadString('\n')`: returns the line including the
delimiter, or all remaining data together with the end-of-stream error when no
delimiter is found. -/
def readString (s : ByteStream) : List Char × Option GoErr × ByteStream :=
  match takeLine s.data with
  | some (l, r) => (l, none, { s with data := r })
  | none => (s.data, some (endErr s), { s with data := [] })

/-- Model of `bufio.Reader.ReadLine()` with internal buffer capacity `cap`:
a complete line (end-of-line bytes stripped, including a `'\r'` before the
`'\n'`), or the first `cap` bytes with `isPrefix = true` when the line
exceeds the buffer (a `'\r'` at the buffer boundary is pushed back), or the
final partial line with no error (the error is only reported by the next
call), or no bytes plus the end-of-stream error. -/
def readLine (cap : Nat) (s : ByteStream) :
    List Char × Bool × Option GoErr × ByteStream :=
  match takeLine (s.data.take cap) with
  | some (l, _) =>
    let core := l.dropLast
    let core := if core.getLast? = some '\r' then core.dropLast else core
    (core, false, none, { s with data := s.data.drop l.length })
  | none =>
    if cap ≤ s.data.length then
      if (s.data.take cap).getLast? = some '\r' then
        (s.data.take (cap - 1), true, none, { s with data := s.data.drop (cap - 1) })
      else
        (s.data.take cap, true, none, { s with data := s.data.drop cap })
    else
      if s.data = [] then ([], false, some (endErr s), s)
      else (s.data, false, none, { s with data := [] })

/-- Model of `io.Copy(io.Discard, input)`: consumes all remaining data (the
error, if any, is discarded by the caller but the reader still fails on
subsequent reads). -/
def drain (s : ByteStream) : ByteStream := { s with data := [] }

/-- One changed path within a commit (Go struct `File`). -/
structure File where
  filename : List Char := []
  size : Nat := 0
  humanSize : List Char := []
  oldFilename : List Char := []
  content : List Char := []
  truncated : Bool := false
  isCreated : Bool := false
  isDeleted : Bool := false
deriving DecidableEq, Repr

/-- One commit (Go struct `Commit`). -/
structure Commit where
  hash : List Char := []
  authorName : List Char := []
  authorEmail : List Char := []
  timestamp : List Char := []
  changed : List Char := []
  files : List File := []
deriving DecidableEq, Repr

/-- `strings.HasPrefix line p`. -/
def pfx (p : String) (l : List Char) : Bool := p.data.isPrefixOf l

/-- Strip one trailing `'\n'` or `'\r'`, as the top commit loop does before
dispatching on the first byte. -/
def stripNL (l : List Char) : List Char :=
  if l ≠ [] ∧ (l.getLast? = some '\n' ∨ l.getLast? = some '\r') then l.dropLast else l

/-- Result of the pre-drain loop at the top of `parseHunks` (drains leftover
fragments of an oversized line, marking the file truncated). -/
inductive PreR where
  | ok (f : File) (s : ByteStream)
  | fail (f : File) (e : GoErr) (s : ByteStream)
  | out
deriving DecidableEq, Repr

/-- The loop `for isFragment { currentFile.Truncated = true; _, isFragment,
err = input.ReadLine() ... }` at the top of `parseHunks`. -/
def preDrain (cap : Nat) : Nat → File → Bool → ByteStream → PreR
  | 0, _, _, _ => .out
  | _ + 1, f, false, s => .ok f s
  | fuel + 1, f, true, s =>
    let f := { f with truncated := true }
    match readLine cap s with
    | (_, isFrag, none, s) => preDrain cap fuel f isFrag s
    | (_, _, some e, s) => .fail f e s

/-- Result of a fragment-draining loop (`for isFragment { ... ReadLine ... }`):
either the fragment ended, or `ReadLine` failed (the raw error is reported
together with the values `ReadLine` returned). -/
inductive DrainR where
  | ok (s : ByteStream)
  | fail (e : GoErr) (lineBytes : List Char) (isFrag : Bool) (s : ByteStream)
  | out
deriving DecidableEq, Repr

/-- The fragment-draining loops of `parseHunks` (discarding the remainder of
an oversized hunk line) and of `parseLog` (reassembling an oversized
`diff --git` line, whose reassembled text is then discarded unused). -/
def drainFragments (cap : Nat) : Nat → Bool → ByteStream → DrainR
  | 0, _, _ => .out
  | _ + 1, false, s => .ok s
  | fuel + 1, true, s =>
    match readLine cap s with
    | (_, isFrag, none, s) => drainFragments cap fuel isFrag s
    | (lb, isFrag, some e, s) => .fail e lb isFrag s

/-- Result of `parseHunks`: the final file (the Go code mutates it through a
pointer, so its state persists into every return), the last `ReadLine` bytes,
the fragment flag, the returned error, and the remaining stream. -/
inductive HunksR where
  | done (f : File) (lineBytes : List Char) (isFrag : Bool) (err : Option GoErr)
      (s : ByteStream)
  | out
deriving DecidableEq, Repr

/-- The main loop of `parseHunks(currentFile, maxBytes, input)`.
`currFileLineCount` is declared in the Go code and used in the byte-cap test
but never incremented; it is carried here unchanged for fidelity.  The Go
block guarded by `if false` (lines 280-284, the per-line byte truncation) is
dead code and is omitted, as is the dead `sb` builder that is reset but never
written. -/
def parseHunksLoop (maxBytes : Int) (cap : Nat) :
    Nat → File → Int → Bool → ByteStream → HunksR
  | 0, _, _, _, _ => .out
  | fuel + 1, f, currFileLineCount, isFrag, s =>
    match preDrain cap (s.data.length + 1) f isFrag s with
    | .out => .out
    | .fail f e s => .done f [] false (some e) s
    | .ok f s =>
      match readLine cap s with
      | (lineBytes, _, some .eof, s) => .done f lineBytes false (some .eof) s
      | (_, _, some e, s) => .done f [] false (some e) s
      | (lineBytes, isFrag, none, s) =>
        if lineBytes = [] then .done f lineBytes false none s
        else if lineBytes.head? = some 'd' then .done f lineBytes isFrag none s
        else if maxBytes > -1 ∧ currFileLineCount ≥ maxBytes then
          parseHunksLoop maxBytes cap fuel { f with truncated := true }
            currFileLineCount isFrag s
        else
          let line := lineBytes
          if isFrag then
            let f := { f with truncated := true }
            match drainFragments cap (s.data.length + 1) true s with
            | .out => .out
            | .fail e lb fr s => .done f lb fr (some (.wrapped e)) s
            | .ok s =>
              parseHunksLoop maxBytes cap fuel
                { f with content := f.content ++ line ++ ['\n'] }
                currFileLineCount false s
          else
            parseHunksLoop maxBytes cap fuel
              { f with content := f.content ++ line ++ ['\n'] }
              currFileLineCount false s

/-- Result of the per-file header loop `currFileLoop`: a fatal error return,
the end of this commit's diff section (`break loopDiff`), the start of the
next file (`break currFileLoop`), or a runtime panic. -/
inductive FileR where
  | errRet (e : GoErr)
  | doneDiff (cc : Option Commit) (s : ByteStream)
  | nextFile (cc : Option Commit) (s : ByteStream)
  | crashed
  | out
deriving DecidableEq, Repr

/-- The `currFileLoop` of `parseLog`: reads diff-header lines for one file
(each line keeps its trailing newline), dispatches on prefixes in source
order, and on a `+++ ` line runs `parseHunks` and appends the file. -/
def currFileLoop (maxBytes : Int) (cap : Nat) :
    Nat → Option Commit → File → Bool → ByteStream → FileR
  | 0, _, _, _, _ => .out
  | fuel + 1, cc, f, parseRename, s =>
    match readString s with
    | (_, some .eof, s) => .doneDiff cc s
    | (_, some e, _) => .errRet e
    | (line, none, s) =>
      if line = ['\n'] then
        match cc with
        | none => .crashed
        | some c => .doneDiff (some { c with files := c.files ++ [f] }) s
      else if pfx "diff --git" line then .nextFile cc s
      else if pfx "old mode" line then currFileLoop maxBytes cap fuel cc f parseRename s
      else if pfx "new mode" line then currFileLoop maxBytes cap fuel cc f parseRename s
      else if pfx "index" line then currFileLoop maxBytes cap fuel cc f parseRename s
      else if pfx "similarity index" line then
        currFileLoop maxBytes cap fuel cc f parseRename s
      else if pfx "dissimilarity index" line then
        currFileLoop maxBytes cap fuel cc f parseRename s
      else if pfx "rename from " line then
        currFileLoop maxBytes cap fuel cc
          { f with oldFilename := (line.take (line.length - 1)).drop 11 } parseRename s
      else if pfx "rename to " line then
        currFileLoop maxBytes cap fuel cc
          { f with filename := (line.take (line.length - 1)).drop 9 } false s
      else if pfx "copy from " line then
        currFileLoop maxBytes cap fuel cc
          { f with oldFilename := (line.take (line.length - 1)).drop 9 } parseRename s
      else if pfx "copy to " line then
        currFileLoop maxBytes cap fuel cc
          { f with filename := (line.take (line.length - 1)).drop 7 } false s
      else if pfx "new file" line then
        currFileLoop maxBytes cap fuel cc { f with isCreated := true } parseRename s
      else if pfx "deleted file" line then
        currFileLoop maxBytes cap fuel cc { f with isDeleted := true } parseRename s
      else if pfx "--- " line then
        let name := (line.take (line.length - 1)).drop 4
        if parseRename ∧ f.isDeleted then
          if 2 ≤ name.length then
            currFileLoop maxBytes cap fuel cc { f with filename := name.drop 2 }
              parseRename s
          else .crashed
        else if parseRename ∧ pfx "a/" name then
          currFileLoop maxBytes cap fuel cc { f with oldFilename := name.drop 2 }
            parseRename s
        else currFileLoop maxBytes cap fuel cc f parseRename s
      else if pfx "+++ " line then
        let name := (line.take (line.length - 1)).drop 4
        let f := if parseRename ∧ pfx "b/" name then { f with filename := name.drop 2 }
          else f
        match parseHunksLoop maxBytes cap (s.data.length + 1) f 0 false s with
        | .out => .out
        | .done f lineBytes isFrag err s =>
          match err with
          | some .eof =>
            match cc with
            | none => .crashed
            | some c => .doneDiff (some { c with files := c.files ++ [f] }) s
          | some e => .errRet e
          | none =>
            match cc with
            | none => .crashed
            | some c =>
              let cc := some { c with files := c.files ++ [f] }
              if lineBytes = [] then .doneDiff cc s
              else
                match drainFragments cap (s.data.length + 1) isFrag s with
                | .out => .out
                | .fail e _ _ _ => .errRet (.wrapped e)
                | .ok s => .nextFile cc s
      else currFileLoop maxBytes cap fuel cc f parseRename s

/-- Result of the per-commit diff loop `loopDiff`. -/
inductive DiffR where
  | errRet (e : GoErr)
  | done (cc : Option Commit) (s : ByteStream)
  | crashed
  | out
deriving DecidableEq, Repr

/-- The `loopDiff` of `parseLog`: before each file, when `maxFiles > -1`
(note Go's short-circuit evaluation protects a nil commit otherwise) and the
file cap is reached, the whole remaining input is drained and discarded. -/
def loopDiff (maxFiles maxBytes : Int) (cap : Nat) :
    Nat → Option Commit → ByteStream → DiffR
  | 0, _, _ => .out
  | fuel + 1, cc, s =>
    if maxFiles > -1 then
      match cc with
      | none => .crashed
      | some c =>
        if (c.files.length : Int) ≥ maxFiles then .done cc (drain s)
        else
          match currFileLoop maxBytes cap (s.data.length + 1) cc {} true s with
          | .out => .out
          | .crashed => .crashed
          | .errRet e => .errRet e
          | .doneDiff cc s => .done cc s
          | .nextFile cc s => loopDiff maxFiles maxBytes cap fuel cc s
    else
      match currFileLoop maxBytes cap (s.data.length + 1) cc {} true s with
      | .out => .out
      | .crashed => .crashed
      | .errRet e => .errRet e
      | .doneDiff cc s => .done cc s
      | .nextFile cc s => loopDiff maxFiles maxBytes cap fuel cc s

/-- Result of `parseLog`: the commit list (entries are `Option Commit`
because Go's `[]*Commit` can hold a nil pointer) together with the returned
error, or a runtime panic. -/
inductive ParseR where
  | ok (commits : List (Option Commit)) (err : Option GoErr)
  | crashed
  | out
deriving DecidableEq, Repr

/-- The `loopCommits` of `parseLog`: reads a line, strips one end-of-line
byte, and dispatches on the first byte (panicking on an empty line); metadata
cases assign `line[2:]` (panicking when the line is shorter than two bytes or
no commit has been started); any other line starts the diff section, after
which the current commit is appended. -/
def parseLogLoop (maxFiles maxBytes : Int) (cap : Nat) :
    Nat → List (Option Commit) → Option Commit → Bool → ByteStream → ParseR
  | 0, _, _, _, _ => .out
  | fuel + 1, commits, cc, headerParsed, s =>
    match readString s with
    | (_, some .eof, _) => .ok commits none
    | (_, some e, _) => .ok commits (some e)
    | (line, none, s) =>
      let line := stripNL line
      match line.head? with
      | none => .crashed
      | some c0 =>
        if c0 = 'c' then
          let commits := if headerParsed then commits ++ [cc] else commits
          if 2 ≤ line.length then
            parseLogLoop maxFiles maxBytes cap fuel commits
              (some { hash := line.drop 2 }) headerParsed s
          else .crashed
        else if c0 = 'a' then
          match cc with
          | none => .crashed
          | some c =>
            if 2 ≤ line.length then
              parseLogLoop maxFiles maxBytes cap fuel commits
                (some { c with authorName := line.drop 2 }) true s
            else .crashed
        else if c0 = 'm' then
          match cc with
          | none => .crashed
          | some c =>
            if 2 ≤ line.length then
              parseLogLoop maxFiles maxBytes cap fuel commits
                (some { c with authorEmail := line.drop 2 }) headerParsed s
            else .crashed
        else if c0 = 't' then
          match cc with
          | none => .crashed
          | some c =>
            if 2 ≤ line.length then
              parseLogLoop maxFiles maxBytes cap fuel commits
                (some { c with timestamp := line.drop 2 }) headerParsed s
            else .crashed
        else
          match loopDiff maxFiles maxBytes cap (s.data.length + 1) cc s with
          | .out => .out
          | .crashed => .crashed
          | .errRet e => .ok commits (some e)
          | .done cc s =>
            parseLogLoop maxFiles maxBytes cap fuel (commits ++ [cc]) cc false s

/-- The internal buffer capacity of `bufio.NewReaderSize(out, maxBytes)`:
sizes below `minReadBufferSize = 16` (including all non-positive ones) are
raised to 16. -/
def bufCap (maxBytes : Int) : Nat := max 16 maxBytes.toNat

/-- `parseLog(out, maxFiles, maxBytes)`. -/
def parseLog (s : ByteStream) (maxFiles maxBytes : Int) : ParseR :=
  parseLogLoop maxFiles maxBytes (bufCap maxBytes) (s.data.length + 1) [] none false s

/-- The commits of a non-panicking parse, `[]` otherwise. -/
def commitsOf : ParseR → List (Option Commit)
  | .ok cs _ => cs
  | _ => []

/-- The files of the first commit of a parse result. -/
def firstFiles (r : ParseR) : List File :=
  match commitsOf r with
  | some c :: _ => c.files
  | _ => []

/-!  Basic characterisations of the reader primitives on structured data. -/

theorem takeLine_append {xs : List Char} (h : '\n' ∉ xs) (r : List Char) :
    takeLine (xs ++ '\n' :: r) = some (xs ++ ['\n'], r) := by
  induction xs with
  | nil => simp [takeLine]
  | cons c cs ih =>
    simp only [List.mem_cons, not_or] at h
    simp [takeLine, ih h.2, Ne.symm h.1, h.1]

theorem takeLine_eq_none {xs : List Char} (h : '\n' ∉ xs) : takeLine xs = none := by
  induction xs with
  | nil => simp [takeLine]
  | cons c cs ih =>
    simp only [List.mem_cons, not_or] at h
    simp [takeLine, ih h.2, Ne.symm h.1]

theorem readString_line {xs : List Char} (h : '\n' ∉ xs) (r : List Char)
    (e : Bool) : readString ⟨xs ++ '\n' :: r, e⟩ = (xs ++ ['\n'], none, ⟨r, e⟩) := by
  simp [readString, takeLine_append h]

theorem readString_end {xs : List Char} (h : '\n' ∉ xs) (e : Bool) :
    readString ⟨xs, e⟩ = (xs, some (if e then .ioError else .eof), ⟨[], e⟩) := by
  simp [readString, takeLine_eq_none h, endErr]

theorem stripNL_append (xs : List Char) : stripNL (xs ++ ['\n']) = xs := by
  simp [stripNL]

/-!  One-line steps of the top commit loop (`loopCommits`).  Each lemma reads
one newline-terminated line off the stream and performs the corresponding
dispatch of `parseLogLoop`. -/

theorem step_meta_c {l : List Char} (hl : '\n' ∉ l) (hc : l.head? = some 'c')
    (h2 : 2 ≤ l.length) (mf mb : Int) (cap fuel : Nat) (cs : List (Option Commit))
    (cc : Option Commit) (hp : Bool) (r : List Char) (e : Bool) :
    parseLogLoop mf mb cap (fuel + 1) cs cc hp ⟨l ++ '\n' :: r, e⟩ =
      parseLogLoop mf mb cap fuel (if hp then cs ++ [cc] else cs)
        (some { hash := l.drop 2 }) hp ⟨r, e⟩ := by
  simp only [parseLogLoop, readString_line hl r e, stripNL_append, hc, h2, if_pos]

theorem step_meta_a {l : List Char} (hl : '\n' ∉ l) (hc : l.head? = some 'a')
    (h2 : 2 ≤ l.length) (mf mb : Int) (cap fuel : Nat) (cs : List (Option Commit))
    (c : Commit) (hp : Bool) (r : List Char) (e : Bool) :
    parseLogLoop mf mb cap (fuel + 1) cs (some c) hp ⟨l ++ '\n' :: r, e⟩ =
      parseLogLoop mf mb cap fuel cs (some { c with authorName := l.drop 2 })
        true ⟨r, e⟩ := by
  simp only [parseLogLoop, readString_line hl r e, stripNL_append, hc, h2, if_pos]
  simp

theorem step_meta_m {l : List Char} (hl : '\n' ∉ l) (hc : l.head? = some 'm')
    (h2 : 2 ≤ l.length) (mf mb : Int) (cap fuel : Nat) (cs : List (Option Commit))
    (c : Commit) (hp : Bool) (r : List Char) (e : Bool) :
    parseLogLoop mf mb cap (fuel + 1) cs (some c) hp ⟨l ++ '\n' :: r, e⟩ =
      parseLogLoop mf mb cap fuel cs (some { c with authorEmail := l.drop 2 })
        hp ⟨r, e⟩ := by
  simp only [parseLogLoop, readString_line hl r e, stripNL_append, hc, h2, if_pos]
  simp

theorem step_meta_t {l : List Char} (hl : '\n' ∉ l) (hc : l.head? = some 't')
    (h2 : 2 ≤ l.length) (mf mb : Int) (cap fuel : Nat) (cs : List (Option Commit))
    (c : Commit) (hp : Bool) (r : List Char) (e : Bool) :
    parseLogLoop mf mb cap (fuel + 1) cs (some c) hp ⟨l ++ '\n' :: r, e⟩ =
      parseLogLoop mf mb cap fuel cs (some { c with timestamp := l.drop 2 })
        hp ⟨r, e⟩ := by
  simp only [parseLogLoop, readString_line hl r e, stripNL_append, hc, h2, if_pos]
  simp

theorem step_diffline (l : List Char) (c0 : Char) (hl : '\n' ∉ l)
    (hc : l.head? = some c0) (hc1 : c0 ≠ 'c') (hc2 : c0 ≠ 'a') (hc3 : c0 ≠ 'm')
    (hc4 : c0 ≠ 't') {mf mb : Int} {cap : Nat} (fuel : Nat)
    (cs : List (Option Commit)) {cc cc' : Option Commit} {r : List Char} {e : Bool}
    {s' : ByteStream} (hp : Bool)
    (hd : loopDiff mf mb cap (r.length + 1) cc ⟨r, e⟩ = .done cc' s') :
    parseLogLoop mf mb cap (fuel + 1) cs cc hp ⟨l ++ '\n' :: r, e⟩ =
      parseLogLoop mf mb cap fuel (cs ++ [cc']) cc' false s' := by
  simp only [parseLogLoop, readString_line hl r e, stripNL_append, hc, hc1, hc2,
    hc3, hc4, if_false, hd]

theorem step_eof (mf mb : Int) (cap fuel : Nat) (cs : List (Option Commit))
    (cc : Option Commit) (hp : Bool) :
    parseLogLoop mf mb cap (fuel + 1) cs cc hp ⟨[], false⟩ = .ok cs none := by
  simp [parseLogLoop, readString, takeLine, endErr]

/-- The four metadata lines of a commit, preceding `rest`. -/
def metaLines (h n em ts : List Char) (rest : List Char) : List Char :=
  (S "c " ++ h) ++ '\n' :: ((S "a " ++ n) ++ '\n' ::
    ((S "m " ++ em) ++ '\n' :: ((S "t " ++ ts) ++ '\n' :: rest)))

theorem metaSteps {h n em ts : List Char} (hh : '\n' ∉ h) (hn : '\n' ∉ n)
    (hm : '\n' ∉ em) (ht : '\n' ∉ ts) (mf mb : Int) (cap fuel : Nat)
    (cs : List (Option Commit)) (cc : Option Commit) (hp : Bool)
    (rest : List Char) (e : Bool) :
    parseLogLoop mf mb cap (fuel + 4) cs cc hp ⟨metaLines h n em ts rest, e⟩ =
      parseLogLoop mf mb cap fuel (if hp then cs ++ [cc] else cs)
        (some { hash := h, authorName := n, authorEmail := em, timestamp := ts })
        true ⟨rest, e⟩ := by
  show parseLogLoop mf mb cap ((fuel + 3) + 1) cs cc hp _ = _
  rw [metaLines, step_meta_c (by simp [S, hh]) (by simp [S]) (by simp [S])]
  show parseLogLoop mf mb cap ((fuel + 2) + 1) _ _ _ _ = _
  rw [step_meta_a (by simp [S, hn]) (by simp [S]) (by simp [S])]
  show parseLogLoop mf mb cap ((fuel + 1) + 1) _ _ _ _ = _
  rw [step_meta_m (by simp [S, hm]) (by simp [S]) (by simp [S])]
  rw [step_meta_t (by simp [S, ht]) (by simp [S]) (by simp [S])]
  simp [S]

/-!  Steps of the per-commit diff loop. -/

theorem loopDiff_below_done {mf : Int} (hmf : mf > -1) {mb : Int} {cap : Nat}
    (fuel : Nat) {c : Commit} (hct : (c.files.length : Int) < mf)
    {s s' : ByteStream} {cc' : Option Commit}
    (hc : currFileLoop mb cap (s.data.length + 1) (some c) {} true s =
      .doneDiff cc' s') :
    loopDiff mf mb cap (fuel + 1) (some c) s = .done cc' s' := by
  simp only [loopDiff, hmf, if_pos, hc]
  simp [not_le.mpr hct]

theorem loopDiff_below_next {mf : Int} (hmf : mf > -1) {mb : Int} {cap : Nat}
    (fuel : Nat) {c : Commit} (hct : (c.files.length : Int) < mf)
    {s s' : ByteStream} {cc' : Option Commit}
    (hc : currFileLoop mb cap (s.data.length + 1) (some c) {} true s =
      .nextFile cc' s') :
    loopDiff mf mb cap (fuel + 1) (some c) s = loopDiff mf mb cap fuel cc' s' := by
  simp only [loopDiff, hmf, if_pos, hc]
  simp [not_le.mpr hct]

theorem loopDiff_uncapped_done {mf : Int} (hmf : ¬mf > -1) {mb : Int} {cap : Nat}
    (fuel : Nat) {cc cc' : Option Commit} {s s' : ByteStream}
    (hc : currFileLoop mb cap (s.data.length + 1) cc {} true s =
      .doneDiff cc' s') :
    loopDiff mf mb cap (fuel + 1) cc s = .done cc' s' := by
  simp only [loopDiff, hmf, if_false, hc]

theorem loopDiff_uncapped_next {mf : Int} (hmf : ¬mf > -1) {mb : Int} {cap : Nat}
    (fuel : Nat) {cc cc' : Option Commit} {s s' : ByteStream}
    (hc : currFileLoop mb cap (s.data.length + 1) cc {} true s =
      .nextFile cc' s') :
    loopDiff mf mb cap (fuel + 1) cc s = loopDiff mf mb cap fuel cc' s' := by
  simp only [loopDiff, hmf, if_false, hc]

/-- Reading end of input inside `currFileLoop` breaks out of the diff section,
leaving the commit to be appended. -/
theorem cfl_eof (mb : Int) (cap fuel : Nat) (cc : Option Commit) (f : File)
    (pr : Bool) : currFileLoop mb cap (fuel + 1) cc f pr ⟨[], false⟩ =
      .doneDiff cc ⟨[], false⟩ := by
  simp [currFileLoop, readString, takeLine, endErr]

/-- A blank line inside the diff section appends the file being built and ends
the commit's diff section. -/
theorem cfl_blank (mb : Int) (cap fuel : Nat) (c : Commit) (f : File) (pr : Bool)
    (r : List Char) (e : Bool) :
    currFileLoop mb cap (fuel + 1) (some c) f pr ⟨'\n' :: r, e⟩ =
      .doneDiff (some { c with files := c.files ++ [f] }) ⟨r, e⟩ := by
  simp [currFileLoop, readString, takeLine]

/-- A commit whose metadata is followed by one diff line and then end of
input. -/
def mkCommit (h n em ts : List Char) (fs : List File) : Commit :=
  { hash := h, authorName := n, authorEmail := em, timestamp := ts, files := fs }

theorem c9_core {h n em ts d : List Char} {c0 : Char} (hh : '\n' ∉ h)
    (hn : '\n' ∉ n) (hm : '\n' ∉ em) (ht : '\n' ∉ ts) (hdn : '\n' ∉ d)
    (hd0 : d.head? = some c0) (h1 : c0 ≠ 'c') (h2 : c0 ≠ 'a') (h3 : c0 ≠ 'm')
    (h4 : c0 ≠ 't') (cap : Nat) :
    ∀ fuel, 6 ≤ fuel →
      parseLogLoop 10 1000 cap fuel [] none false
          ⟨metaLines h n em ts (d ++ '\n' :: []), false⟩ =
        .ok [some (mkCommit h n em ts [])] none := by
  intro fuel hf
  obtain ⟨k, rfl⟩ : ∃ k, fuel = (k + 2) + 4 := ⟨fuel - 6, by omega⟩
  rw [metaSteps hh hn hm ht]
  rw [show ({ hash := h, authorName := n, authorEmail := em, timestamp := ts } : Commit) = mkCommit h n em ts [] from rfl]
  show parseLogLoop 10 1000 cap ((k + 1) + 1) _ _ _ _ = _
  rw [step_diffline d c0 hdn hd0 h1 h2 h3 h4 (k + 1) _ _
    (loopDiff_below_done (by decide) 0 (by simp [mkCommit])
      (cfl_eof 1000 cap 0 _ ({} : File) true))]
  rw [step_eof]
  simp

/-- C9 (counterexample): an input stream that ends right after the four
metadata lines of a commit — the hash line was parsed, yet `parseLog` returns
an empty commit list, silently dropping the commit, contradicting the claim
that the currently-open commit is always flushed at end of input. -/
theorem c9_eof_after_metadata_drops_commit :
    parseLog ⟨S "c h\na n\nm e\nt 1\n", false⟩ 10 1000 = .ok [] none := by rfl

/-- C9 (amended): if end of input is reached after the commit's diff section
has started (at least one newline-terminated non-metadata line followed the
metadata), the currently-open commit is flushed into the result; a stream
that ends before any diff line instead drops the open commit (see the
counterexample). -/
theorem c9_eof_during_diff_flushes_commit {h n em ts d : List Char} {c0 : Char}
    (hh : '\n' ∉ h) (hn : '\n' ∉ n) (hm : '\n' ∉ em) (ht : '\n' ∉ ts)
    (hdn : '\n' ∉ d) (hd0 : d.head? = some c0) (h1 : c0 ≠ 'c') (h2 : c0 ≠ 'a')
    (h3 : c0 ≠ 'm') (h4 : c0 ≠ 't') :
    parseLog ⟨metaLines h n em ts (d ++ '\n' :: []), false⟩ 10 1000 =
      .ok [some (mkCommit h n em ts [])] none := by
  rw [parseLog]
  refine c9_core hh hn hm ht hdn hd0 h1 h2 h3 h4 _ _ ?_
  simp only [metaLines, S]
  simp [List.length_append]
  omega

/-- C9 (witness): the amended theorem applied to a concrete stream ending
right after the first diff line of a commit. -/
theorem c9_eof_during_diff_flushes_commit_witness :
    parseLog ⟨metaLines (S "h1") (S "n1") (S "e1") (S "1700")
        (S "diff --git a/f b/f" ++ '\n' :: []), false⟩ 10 1000 =
      .ok [some (mkCommit (S "h1") (S "n1") (S "e1") (S "1700") [])] none :=
  c9_eof_during_diff_flushes_commit (by decide) (by decide) (by decide)
    (by decide) (by decide) rfl (by decide) (by decide) (by decide) (by decide)

/-- A commit whose diff section contains a mode-only file `x` (a `diff --git`
header with mode lines but no hunk body, the next file's header following
directly) and then an ordinary file `y` with a hunk body. -/
def c1input : List Char :=
  S "c h\na n\nm e\nt 1\ndiff --git a/x b/x\nold mode 100644\nnew mode 100755\ndiff --git a/y b/y\n--- a/y\n+++ b/y\n@@ -1 +1 @@\nhello\n\n"

/-- The single file record `parseLog` emits for `c1input`. -/
def c1fileY : File :=
  { filename := S "y", oldFilename := S "y", content := S "@@ -1 +1 @@\nhello\n" }

/-- C1: the log parser is claimed to emit every file of the input exactly
once, including files whose diff header has no hunk body.  The code instead
drops such files: `currFileLoop` only appends a file after reaching a `+++ `
line, so a mode-only file whose header is followed by the next `diff --git`
is discarded.  On `c1input`, which holds two files `x` (mode-only) and `y`,
only `y` is emitted — `x` appears in no file record of the output. -/
theorem c1_headerless_file_dropped :
    parseLog ⟨c1input, false⟩ 10 1000 =
        .ok [some (mkCommit (S "h") (S "n") (S "e") (S "1") [c1fileY])] none ∧
      (firstFiles (parseLog ⟨c1input, false⟩ 10 1000)).map File.filename =
        [S "y"] := by
  constructor
  · rfl
  · rfl

/-- A commit with one file whose three hunk lines total 33 content bytes,
parsed with `maxBytesPerFile = 20`. -/
def c2input : List Char :=
  S "c h\na n\nm e\nt 1\ndiff --git a/f b/f\n--- a/f\n+++ b/f\n+aaaaaaaaa\n+bbbbbbbbb\n+ccccccccc\n\n"

/-- The file record `parseLog` emits for `c2input` with `maxBytes = 20`. -/
def c2file : File :=
  { filename := S "f", oldFilename := S "f",
    content := S "+aaaaaaaaa\n+bbbbbbbbb\n+ccccccccc\n" }

/-- C2: the byte cap is claimed to mark the file truncated and keep `content`
at most `maxBytesPerFile` bytes.  In the code the cap can never trigger for a
positive `maxBytes`: `parseHunks` declares `currFileLineCount`, tests
`currFileLineCount >= maxBytes`, but never increments it, so the test is
`0 >= maxBytes`, false for every positive cap.  With `maxBytes = 20` the
emitted file accumulates 33 bytes of content and `truncated` stays false. -/
theorem c2_byte_cap_never_triggers :
    parseLog ⟨c2input, false⟩ 10 20 =
        .ok [some (mkCommit (S "h") (S "n") (S "e") (S "1") [c2file])] none ∧
      20 < c2file.content.length ∧ c2file.truncated = false := by
  refine ⟨by rfl, by decide, by rfl⟩

/-- Two commits; the first holds two files while `maxFilesPerCommit = 1`. -/
def c3input : List Char :=
  S "c h1\na n1\nm e1\nt 1\ndiff --git a/f1 b/f1\n--- a/f1\n+++ b/f1\n@@ x\n+one\ndiff --git a/f2 b/f2\n--- a/f2\n+++ b/f2\n@@ y\n+two\n\nc h2\na n2\nm e2\nt 2\ndiff --git a/g b/g\n--- a/g\n+++ b/g\n@@ z\n+three\n\n"

/-- The file record `parseLog` emits for the first commit of `c3input`. -/
def c3file1 : File :=
  { filename := S "f1", oldFilename := S "f1", content := S "@@ x\n+one\n" }

/-- C3: when a commit exceeds the file cap, the excess is claimed to be
drained only up to the commit boundary so that every later commit is still
parsed.  The code instead executes `io.Copy(io.Discard, input)`, consuming
the whole remaining stream: on `c3input` with `maxFiles = 1` the first commit
is emitted with exactly one file, but the second commit `h2` vanishes from
the output entirely. -/
theorem c3_file_cap_drains_rest_of_input :
    parseLog ⟨c3input, false⟩ 1 1000 =
        .ok [some (mkCommit (S "h1") (S "n1") (S "e1") (S "1") [c3file1])] none ∧
      (commitsOf (parseLog ⟨c3input, false⟩ 1 1000)).map
          (Option.map Commit.hash) = [some (S "h1")] := by
  refine ⟨by rfl, by rfl⟩

/-- C4: the parser is claimed never to panic on malformed input, recovering
locally or returning an error.  The code panics on both cited malformed
streams: an author-name metadata line arriving before any commit-hash line
dereferences the nil `currentCommit`, and a blank line where a metadata or
diff line is expected indexes `line[0]` on an empty string. -/
theorem c4_malformed_input_panics :
    parseLog ⟨S "a X\n", false⟩ 10 1000 = .crashed ∧
      parseLog ⟨S "\n", false⟩ 10 1000 = .crashed := by
  refine ⟨by rfl, by rfl⟩

/-- C8: a commit whose four metadata lines are followed immediately by a
blank line (an empty commit) is claimed to be emitted with an empty file
sequence.  The code never reaches the emit: the blank separator line is read
by the top commit loop, stripped to the empty string, and `line[0]` panics
with an index-out-of-range. -/
theorem c8_empty_commit_panics :
    parseLog ⟨S "c h\na n\nm e\nt 1\n\n", false⟩ 10 1000 = .crashed := by rfl

/-!  Further characterisations of `readLine` and single steps of the hunk
and diff-header loops, used by the symbolic proofs below. -/

theorem readLine_blank {cap : Nat} (hcap : 1 ≤ cap) (r : List Char) (e : Bool) :
    readLine cap ⟨'\n' :: r, e⟩ = ([], false, none, ⟨r, e⟩) := by
  obtain ⟨m, rfl⟩ : ∃ m, cap = m + 1 := ⟨cap - 1, by omega⟩
  simp [readLine, takeLine]

theorem readLine_eof {cap : Nat} (hcap : 1 ≤ cap) (e : Bool) :
    readLine cap ⟨[], e⟩ = ([], false, some (endErr ⟨[], e⟩), ⟨[], e⟩) := by
  simp [readLine, takeLine]
  omega

theorem readLine_complete {xs : List Char} (hnl : '\n' ∉ xs)
    (hlast : xs.getLast? ≠ some '\r') {cap : Nat} (hcap : xs.length < cap)
    (r : List Char) (e : Bool) :
    readLine cap ⟨xs ++ '\n' :: r, e⟩ = (xs, false, none, ⟨r, e⟩) := by
  obtain ⟨m, hm⟩ : ∃ m, cap - xs.length = m + 1 := ⟨cap - xs.length - 1, by omega⟩
  have h1 : (xs ++ '\n' :: r).take cap = xs ++ '\n' :: r.take m := by
    rw [List.take_append_eq_append_take, List.take_of_length_le (by omega), hm]
    simp
  have h2 : takeLine ((xs ++ '\n' :: r).take cap) = some (xs ++ ['\n'], r.take m) := by
    rw [h1, takeLine_append hnl]
  simp only [readLine, h2]
  have h3 : (xs ++ '\n' :: r).drop (xs ++ ['\n']).length = r := by
    have : xs ++ '\n' :: r = (xs ++ ['\n']) ++ r := by simp
    rw [this, List.drop_left]
  simp [h3, List.dropLast_concat, hlast]

theorem phl_blank {cap : Nat} (hcap : 1 ≤ cap) (mb : Int) (k : Nat) (f : File)
    (cfc : Int) (r : List Char) (e : Bool) :
    parseHunksLoop mb cap (k + 1) f cfc false ⟨'\n' :: r, e⟩ =
      .done f [] false none ⟨r, e⟩ := by
  simp [parseHunksLoop, preDrain, readLine_blank hcap]

theorem phl_eof {cap : Nat} (hcap : 1 ≤ cap) (mb : Int) (k : Nat) (f : File)
    (cfc : Int) :
    parseHunksLoop mb cap (k + 1) f cfc false ⟨[], false⟩ =
      .done f [] false (some .eof) ⟨[], false⟩ := by
  simp [parseHunksLoop, preDrain, readLine_eof hcap, endErr]

theorem phl_dline {xs : List Char} (hnl : '\n' ∉ xs)
    (hlast : xs.getLast? ≠ some '\r') (hd : xs.head? = some 'd') {cap : Nat}
    (hcap : xs.length < cap) (mb : Int) (k : Nat) (f : File) (cfc : Int)
    (r : List Char) (e : Bool) :
    parseHunksLoop mb cap (k + 1) f cfc false ⟨xs ++ '\n' :: r, e⟩ =
      .done f xs false none ⟨r, e⟩ := by
  have hne : xs ≠ [] := by rintro rfl; simp at hd
  simp [parseHunksLoop, preDrain, readLine_complete hnl hlast hcap, hne, hd]

theorem phl_content {xs : List Char} (hnl : '\n' ∉ xs)
    (hlast : xs.getLast? ≠ some '\r') (hne : xs ≠ []) (hd : xs.head? ≠ some 'd')
    {cap : Nat} (hcap : xs.length < cap) {mb : Int} {cfc : Int}
    (hbc : ¬(mb > -1 ∧ cfc ≥ mb)) (k : Nat) (f : File) (r : List Char) (e : Bool) :
    parseHunksLoop mb cap (k + 1) f cfc false ⟨xs ++ '\n' :: r, e⟩ =
      parseHunksLoop mb cap k { f with content := f.content ++ xs ++ ['\n'] }
        cfc false ⟨r, e⟩ := by
  simp [parseHunksLoop, preDrain, readLine_complete hnl hlast hcap, hne, hd, hbc]

theorem cfl_rename_from (mb : Int) (cap k : Nat) (cc : Option Commit) (f : File)
    (pr : Bool) (r : List Char) (e : Bool) :
    currFileLoop mb cap (k + 1) cc f pr ⟨S "rename from a/old.txt" ++ '\n' :: r, e⟩ =
      currFileLoop mb cap k cc { f with oldFilename := S " a/old.txt" } pr ⟨r, e⟩ := by
  simp [currFileLoop, readString, takeLine, pfx, List.isPrefixOf, S]

theorem cfl_rename_to (mb : Int) (cap k : Nat) (cc : Option Commit) (f : File)
    (pr : Bool) (r : List Char) (e : Bool) :
    currFileLoop mb cap (k + 1) cc f pr ⟨S "rename to b/new.txt" ++ '\n' :: r, e⟩ =
      currFileLoop mb cap k cc { f with filename := S " b/new.txt" } false ⟨r, e⟩ := by
  simp [currFileLoop, readString, takeLine, pfx, List.isPrefixOf, S]

theorem cfl_minus_norename {p : List Char} (hp : '\n' ∉ p) (mb : Int)
    (cap k : Nat) (cc : Option Commit) (f : File) (r : List Char) (e : Bool) :
    currFileLoop mb cap (k + 1) cc f false ⟨(S "--- " ++ p) ++ '\n' :: r, e⟩ =
      currFileLoop mb cap k cc f false ⟨r, e⟩ := by
  simp [currFileLoop, readString, takeLine, takeLine_append hp, pfx,
    List.isPrefixOf, S]

theorem cfl_plus_norename_blank {q : List Char} (hq : '\n' ∉ q) {cap : Nat}
    (hcap : 1 ≤ cap) (mb : Int) (k : Nat) (c : Commit) (f : File) (e : Bool) :
    currFileLoop mb cap (k + 1) (some c) f false ⟨(S "+++ " ++ q) ++ '\n' :: ('\n' :: []), e⟩ =
      .doneDiff (some { c with files := c.files ++ [f] }) ⟨[], e⟩ := by
  simp [currFileLoop, readString, takeLine, takeLine_append hq, pfx,
    List.isPrefixOf, S, phl_blank hcap]

/-- A diff-header section with an explicit rename pair followed by `--- ` and
`+++ ` path lines `p` and `q`. -/
def c6diff (p q : List Char) : List Char :=
  S "rename from a/old.txt" ++ '\n' :: (S "rename to b/new.txt" ++ '\n' ::
    ((S "--- " ++ p) ++ '\n' :: ((S "+++ " ++ q) ++ '\n' :: ('\n' :: []))))

/-- A one-commit stream whose single file header holds the rename pair. -/
def c6input (p q : List Char) : List Char :=
  metaLines (S "h") (S "n") (S "e") (S "1")
    (S "diff --git a/old.txt b/new.txt" ++ '\n' :: c6diff p q)

/-- The file record the code emits for the rename pair: the slices
`line[11:len-1]` and `line[9:len-1]` start one byte early, keeping the space
before the path, and the `a/` and `b/` prefixes are not stripped from rename
lines. -/
def c6file : File :=
  { filename := S " b/new.txt", oldFilename := S " a/old.txt" }

theorem c6files {p q : List Char} (hp : '\n' ∉ p) (hq : '\n' ∉ q) (cap : Nat)
    (hcap : 1 ≤ cap) (c : Commit) :
    ∀ fuel, 4 ≤ fuel →
      currFileLoop 1000 cap fuel (some c) ({} : File) true ⟨c6diff p q, false⟩ =
        .doneDiff (some { c with files := c.files ++ [c6file] }) ⟨[], false⟩ := by
  intro fuel hf
  obtain ⟨k, rfl⟩ : ∃ k, fuel = k + 4 := ⟨fuel - 4, by omega⟩
  rw [c6diff]
  show currFileLoop 1000 cap ((k + 3) + 1) _ _ _ _ = _
  rw [cfl_rename_from]
  show currFileLoop 1000 cap ((k + 2) + 1) _ _ _ _ = _
  rw [cfl_rename_to]
  show currFileLoop 1000 cap ((k + 1) + 1) _ _ _ _ = _
  rw [cfl_minus_norename hp]
  rw [cfl_plus_norename_blank hq hcap]
  rfl

theorem c6core {p q : List Char} (hp : '\n' ∉ p) (hq : '\n' ∉ q) :
    ∀ fuel, 6 ≤ fuel →
      parseLogLoop 10 1000 (bufCap 1000) fuel [] none false ⟨c6input p q, false⟩ =
        .ok [some (mkCommit (S "h") (S "n") (S "e") (S "1") [c6file])] none := by
  intro fuel hf
  obtain ⟨k, rfl⟩ : ∃ k, fuel = (k + 2) + 4 := ⟨fuel - 6, by omega⟩
  rw [c6input, metaSteps (by decide) (by decide) (by decide) (by decide)]
  show parseLogLoop 10 1000 (bufCap 1000) ((k + 1) + 1) _ _ _ _ = _
  rw [step_diffline (S "diff --git a/old.txt b/new.txt") 'd' (by decide) rfl
    (by decide) (by decide) (by decide) (by decide) (k + 1) _ _
    (loopDiff_below_done (by decide) ((c6diff p q).length) (by decide)
      (c6files hp hq (bufCap 1000) (by decide) _ _ (by simp [c6diff]; omega)))]
  rw [step_eof]
  simp [mkCommit]

/-- C6 (counterexample): on the concrete rename-pair header
(`rename from a/old.txt`, `rename to b/new.txt`, then `--- a/zzz` and
`+++ b/www`), the emitted record's values are `" a/old.txt"`/`" b/new.txt"`,
not `"old.txt"`/`"new.txt"` as claimed: the Go slices `line[11:len-1]` and
`line[9:len-1]` begin at the space before the path and keep the `a/`/`b/`
prefixes. -/
theorem c6_rename_values_not_stripped :
    firstFiles (parseLog ⟨c6input (S "a/zzz") (S "b/www"), false⟩ 10 1000) =
        [c6file] ∧
      c6file.oldFilename ≠ S "old.txt" ∧ c6file.filename ≠ S "new.txt" := by
  refine ⟨by rfl, by decide, by decide⟩

/-- C6 (amended): for a file whose diff header contains
`rename from a/old.txt` then `rename to b/new.txt`, the emitted record has
`oldFilename = " a/old.txt"` and `filename = " b/new.txt"` (the byte right
before the path is kept and the `a/`/`b/` prefixes are not stripped), and
subsequent `--- `/`+++ ` path lines — any paths `p`, `q` — do not overwrite
either value, because the rename pair clears `parseRename`. -/
theorem c6_rename_pair_has_precedence {p q : List Char} (hp : '\n' ∉ p)
    (hq : '\n' ∉ q) :
    parseLog ⟨c6input p q, false⟩ 10 1000 =
      .ok [some (mkCommit (S "h") (S "n") (S "e") (S "1") [c6file])] none := by
  rw [parseLog]
  refine c6core hp hq _ ?_
  simp [c6input, metaLines, c6diff, S, List.length_append]

/-- C6 (witness): the amended theorem applied at the subsequent path lines
`--- a/zzz` and `+++ b/www`; neither overwrites the rename-pair values. -/
theorem c6_rename_pair_has_precedence_witness :
    parseLog ⟨c6input (S "a/zzz2") (S "b/www2"), false⟩ 10 1000 =
      .ok [some (mkCommit (S "h") (S "n") (S "e") (S "1") [c6file])] none :=
  c6_rename_pair_has_precedence (by decide) (by decide)

/-- Hunk body lines, each newline-terminated. -/
def linesJoin (hs : List (List Char)) : List Char :=
  (hs.map (fun l => l ++ ['\n'])).flatten

theorem linesJoin_length (hs : List (List Char)) :
    hs.length ≤ (linesJoin hs).length := by
  induction hs with
  | nil => simp [linesJoin]
  | cons l hs ih => simp only [linesJoin, List.map_cons, List.flatten_cons,
      List.length_append, List.length_cons] at ih ⊢; omega

/-- Running the hunk-body loop over well-formed hunk lines terminated by a
blank line: every line is appended to the file's content followed by a
newline, and the blank line ends the hunks with no error. -/
theorem hunksRun {mb : Int} {cap : Nat} (hcap : 1 ≤ cap)
    (hbc : ¬(mb > -1 ∧ (0 : Int) ≥ mb)) {hs : List (List Char)}
    (hh : ∀ l ∈ hs, '\n' ∉ l ∧ l.getLast? ≠ some '\r' ∧ l ≠ [] ∧
      l.head? ≠ some 'd' ∧ l.length < cap) (r : List Char) (e : Bool) :
    ∀ fuel, hs.length < fuel → ∀ f : File,
      parseHunksLoop mb cap fuel f 0 false ⟨linesJoin hs ++ '\n' :: r, e⟩ =
        .done { f with content := f.content ++ linesJoin hs } [] false none
          ⟨r, e⟩ := by
  induction hs with
  | nil =>
    intro fuel hf f
    obtain ⟨k, rfl⟩ : ∃ k, fuel = k + 1 := ⟨fuel - 1, by omega⟩
    simp [linesJoin, phl_blank hcap]
  | cons l hs ih =>
    intro fuel hf f
    obtain ⟨k, rfl⟩ : ∃ k, fuel = k + 1 := ⟨fuel - 1, by omega⟩
    obtain ⟨h1, h2, h3, h4, h5⟩ := hh l (by simp)
    have hrest : linesJoin (l :: hs) ++ '\n' :: r =
        l ++ '\n' :: (linesJoin hs ++ '\n' :: r) := by
      simp [linesJoin]
    rw [hrest, phl_content h1 h2 h3 h4 h5 hbc]
    rw [ih (fun x hx => hh x (by simp [hx])) _ (by simp at hf; omega)]
    simp [linesJoin]

theorem cfl_deleted_file (mb : Int) (cap k : Nat) (cc : Option Commit)
    (f : File) (pr : Bool) (r : List Char) (e : Bool) :
    currFileLoop mb cap (k + 1) cc f pr ⟨S "deleted file mode 100644" ++ '\n' :: r, e⟩ =
      currFileLoop mb cap k cc { f with isDeleted := true } pr ⟨r, e⟩ := by
  simp [currFileLoop, readString, takeLine, pfx, List.isPrefixOf, S]

theorem cfl_minus_deleted (mb : Int) (cap k : Nat) (cc : Option Commit)
    {f : File} (hfd : f.isDeleted = true) (r : List Char) (e : Bool) :
    currFileLoop mb cap (k + 1) cc f true ⟨S "--- a/path.txt" ++ '\n' :: r, e⟩ =
      currFileLoop mb cap k cc { f with filename := S "path.txt" } true ⟨r, e⟩ := by
  simp [currFileLoop, readString, takeLine, pfx, List.isPrefixOf, S, hfd]

theorem cfl_plus_devnull {mb : Int} {cap k : Nat} (c : Commit) {f f' : File}
    (pr : Bool) {r r' : List Char} {e e' : Bool}
    (hph : parseHunksLoop mb cap (r.length + 1) f 0 false ⟨r, e⟩ =
      .done f' [] false none ⟨r', e'⟩) :
    currFileLoop mb cap (k + 1) (some c) f pr ⟨S "+++ /dev/null" ++ '\n' :: r, e⟩ =
      .doneDiff (some { c with files := c.files ++ [f'] }) ⟨r', e'⟩ := by
  simp [currFileLoop, readString, takeLine, pfx, List.isPrefixOf, S, hph]

/-- The diff-header and hunk body of a deleted file `path.txt`. -/
def c7diff (hs : List (List Char)) : List Char :=
  S "deleted file mode 100644" ++ '\n' :: (S "--- a/path.txt" ++ '\n' ::
    (S "+++ /dev/null" ++ '\n' :: (linesJoin hs ++ '\n' :: [])))

/-- A one-commit stream whose single file is the deletion of `path.txt`. -/
def c7input (h n em ts : List Char) (hs : List (List Char)) : List Char :=
  metaLines h n em ts (S "diff --git a/path.txt b/path.txt" ++ '\n' :: c7diff hs)

/-- The record emitted for the deleted file. -/
def c7file (hs : List (List Char)) : File :=
  { filename := S "path.txt", isDeleted := true, content := linesJoin hs }

theorem c7files {hs : List (List Char)} (cap : Nat) (hcap : 1 ≤ cap)
    (hhs : ∀ l ∈ hs, '\n' ∉ l ∧ l.getLast? ≠ some '\r' ∧ l ≠ [] ∧
      l.head? ≠ some 'd' ∧ l.length < cap) (c : Commit) :
    ∀ fuel, 3 ≤ fuel →
      currFileLoop 1000 cap fuel (some c) ({} : File) true ⟨c7diff hs, false⟩ =
        .doneDiff (some { c with files := c.files ++ [c7file hs] }) ⟨[], false⟩ := by
  intro fuel hf
  obtain ⟨k, rfl⟩ : ∃ k, fuel = k + 3 := ⟨fuel - 3, by omega⟩
  rw [c7diff]
  show currFileLoop 1000 cap ((k + 2) + 1) _ _ _ _ = _
  rw [cfl_deleted_file]
  show currFileLoop 1000 cap ((k + 1) + 1) _ _ _ _ = _
  rw [cfl_minus_deleted 1000 cap (k + 1) _ rfl]
  show currFileLoop 1000 cap (k + 1) (some c)
    { filename := S "path.txt", isDeleted := true } true
    ⟨S "+++ /dev/null" ++ '\n' :: (linesJoin hs ++ '\n' :: []), false⟩ = _
  rw [cfl_plus_devnull _ true
    (hunksRun hcap (by decide) hhs [] false _
      (by have := linesJoin_length hs; simp [List.length_append]; omega)
      { filename := S "path.txt", isDeleted := true })]
  simp [c7file]

theorem c7core {h n em ts : List Char} (hh : '\n' ∉ h) (hn : '\n' ∉ n)
    (hm : '\n' ∉ em) (ht : '\n' ∉ ts) {hs : List (List Char)}
    (hhs : ∀ l ∈ hs, '\n' ∉ l ∧ l.getLast? ≠ some '\r' ∧ l ≠ [] ∧
      l.head? ≠ some 'd' ∧ l.length < 1000) :
    ∀ fuel, 6 ≤ fuel →
      parseLogLoop 10 1000 (bufCap 1000) fuel [] none false
          ⟨c7input h n em ts hs, false⟩ =
        .ok [some (mkCommit h n em ts [c7file hs])] none := by
  intro fuel hf
  obtain ⟨k, rfl⟩ : ∃ k, fuel = (k + 2) + 4 := ⟨fuel - 6, by omega⟩
  rw [c7input, metaSteps hh hn hm ht]
  show parseLogLoop 10 1000 (bufCap 1000) ((k + 1) + 1) _ _ _ _ = _
  rw [step_diffline (S "diff --git a/path.txt b/path.txt") 'd' (by decide) rfl
    (by decide) (by decide) (by decide) (by decide) (k + 1) _ _
    (loopDiff_below_done (by decide) ((c7diff hs).length) (by simp)
      (c7files (bufCap 1000) (by decide) (by simpa [bufCap] using hhs) _ _
        (by simp [c7diff]; omega)))]
  rw [step_eof]
  simp [mkCommit]

/-- C7: for a file whose diff header contains a `deleted file` marker
followed by `--- a/path.txt` with no rename/copy pair and `+++ /dev/null`,
the emitted record has `filename = "path.txt"` (the `a/` prefix stripped by
the `name[2:]` slice of the `--- ` handler, taken because the file is marked
deleted) and `isDeleted = true` — for arbitrary commit metadata and an
arbitrary well-formed hunk body. -/
theorem c7_deleted_file_detected {h n em ts : List Char} (hh : '\n' ∉ h)
    (hn : '\n' ∉ n) (hm : '\n' ∉ em) (ht : '\n' ∉ ts) {hs : List (List Char)}
    (hhs : ∀ l ∈ hs, '\n' ∉ l ∧ l.getLast? ≠ some '\r' ∧ l ≠ [] ∧
      l.head? ≠ some 'd' ∧ l.length < 1000) :
    parseLog ⟨c7input h n em ts hs, false⟩ 10 1000 =
      .ok [some (mkCommit h n em ts [c7file hs])] none := by
  rw [parseLog]
  refine c7core hh hn hm ht hhs _ ?_
  simp [c7input, metaLines, c7diff, S, List.length_append]
  omega

/-- C7 (witness): the theorem applied to a concrete deleted file with a
two-line hunk body; the emitted record carries `filename = "path.txt"`,
`isDeleted = true`. -/
theorem c7_deleted_file_detected_witness :
    parseLog ⟨c7input (S "h1") (S "n1") (S "e1") (S "1700")
        [S "@@ -1 +0,0 @@", S "-bye"], false⟩ 10 1000 =
      .ok [some (mkCommit (S "h1") (S "n1") (S "e1") (S "1700")
        [c7file [S "@@ -1 +0,0 @@", S "-bye"]])] none :=
  c7_deleted_file_detected (by decide) (by decide) (by decide) (by decide)
    (by decide)

theorem getLast?_ne_of_notMem {l : List Char} {c : Char} (h : c ∉ l) :
    l.getLast? ≠ some c := by
  intro heq
  have hmem : c ∈ l.getLast? := by rw [heq]; rfl
  obtain ⟨hne, hc⟩ := List.mem_getLast?_eq_getLast hmem
  exact h (by rw [hc]; exact List.getLast_mem hne)

theorem readLine_frag {x : List Char} {cap : Nat} (_hcap : 1 ≤ cap)
    (hlen : cap ≤ x.length) (hn : '\n' ∉ x) (hr : '\r' ∉ x) (r : List Char)
    (e : Bool) :
    readLine cap ⟨x ++ '\n' :: r, e⟩ =
      (x.take cap, true, none, ⟨x.drop cap ++ '\n' :: r, e⟩) := by
  have hc0 : cap - x.length = 0 := by omega
  have htake : (x ++ '\n' :: r).take cap = x.take cap := by
    rw [List.take_append_eq_append_take, hc0]
    simp
  have hdrop : (x ++ '\n' :: r).drop cap = x.drop cap ++ '\n' :: r := by
    rw [List.drop_append_eq_append_drop, hc0]
    simp
  have hnone : takeLine (x.take cap) = none :=
    takeLine_eq_none (fun hmem => hn (List.take_subset _ _ hmem))
  have hlast : (x.take cap).getLast? ≠ some '\r' :=
    getLast?_ne_of_notMem (fun hmem => hr (List.take_subset _ _ hmem))
  have hlen3 : cap ≤ x.length + (r.length + 1) := by omega
  simp [readLine, htake, hdrop, hnone, hlast, hlen3]

theorem drainRun {cap : Nat} (hcap : 1 ≤ cap) :
    ∀ fuel (y : List Char), '\n' ∉ y → '\r' ∉ y → ∀ (r : List Char) (e : Bool),
      y.length + 2 ≤ fuel →
      drainFragments cap fuel true ⟨y ++ '\n' :: r, e⟩ = .ok ⟨r, e⟩ := by
  intro fuel
  induction fuel with
  | zero => intro y _ _ r e hf; omega
  | succ k ih =>
    intro y hn hr r e hf
    by_cases hylen : y.length < cap
    · have h1 : drainFragments cap (k + 1) true ⟨y ++ '\n' :: r, e⟩ =
          drainFragments cap k false ⟨r, e⟩ := by
        simp [drainFragments,
          readLine_complete hn (getLast?_ne_of_notMem hr) hylen]
      rw [h1]
      obtain ⟨m, rfl⟩ : ∃ m, k = m + 1 := ⟨k - 1, by omega⟩
      simp [drainFragments]
    · have hylen2 : cap ≤ y.length := by omega
      have h1 : drainFragments cap (k + 1) true ⟨y ++ '\n' :: r, e⟩ =
          drainFragments cap k true ⟨y.drop cap ++ '\n' :: r, e⟩ := by
        simp [drainFragments, readLine_frag hcap hylen2 hn hr]
      rw [h1]
      refine ih (y.drop cap) (fun hm => hn (List.drop_subset _ _ hm))
        (fun hm => hr (List.drop_subset _ _ hm)) r e ?_
      simp only [List.length_drop]
      omega


theorem head?_take {x : List Char} {cap : Nat} (hcap : 1 ≤ cap) :
    (x.take cap).head? = x.head? := by
  obtain ⟨m, rfl⟩ : ∃ m, cap = m + 1 := ⟨cap - 1, by omega⟩
  cases x <;> simp

theorem phl_fragline {x : List Char} {cap : Nat} (hcap : 1 ≤ cap)
    (hlen : cap ≤ x.length) (hn : '\n' ∉ x) (hr : '\r' ∉ x)
    (hd : x.head? ≠ some 'd') {mb cfc : Int} (hbc : ¬(mb > -1 ∧ cfc ≥ mb))
    (k : Nat) (f : File) (r : List Char) (e : Bool) :
    parseHunksLoop mb cap (k + 1) f cfc false ⟨x ++ '\n' :: r, e⟩ =
      parseHunksLoop mb cap k
        { f with content := f.content ++ x.take cap ++ ['\n'], truncated := true }
        cfc false ⟨r, e⟩ := by
  have hxne : x ≠ [] := by
    intro h
    subst h
    simp at hlen
    omega
  have hne : x.take cap ≠ [] := by
    simp [List.take_eq_nil_iff, hxne]
    omega
  have hhd : (x.take cap).head? ≠ some 'd' := by rw [head?_take hcap]; exact hd
  have hdr : drainFragments cap (x.length - cap + (r.length + 1) + 1) true
      ⟨x.drop cap ++ '\n' :: r, e⟩ = .ok ⟨r, e⟩ := by
    refine drainRun hcap _ _ (fun hm => hn (List.drop_subset _ _ hm))
      (fun hm => hr (List.drop_subset _ _ hm)) r e ?_
    simp only [List.length_drop]
    omega
  simp [parseHunksLoop, preDrain, readLine_frag hcap hlen hn hr, hne, hhd, hbc,
    hdr]

theorem cfl_minus_af (mb : Int) (cap k : Nat) (cc : Option Commit) {f : File}
    (hfd : f.isDeleted = false) (r : List Char) (e : Bool) :
    currFileLoop mb cap (k + 1) cc f true ⟨S "--- a/f" ++ '\n' :: r, e⟩ =
      currFileLoop mb cap k cc { f with oldFilename := S "f" } true ⟨r, e⟩ := by
  simp [currFileLoop, readString, takeLine, pfx, List.isPrefixOf, S, hfd]

theorem cfl_plus_bf {mb : Int} {cap k : Nat} (c : Commit) {f f' : File}
    {r r' : List Char} {e e' : Bool}
    (hph : parseHunksLoop mb cap (r.length + 1) { f with filename := S "f" } 0
      false ⟨r, e⟩ = .done f' [] false none ⟨r', e'⟩) :
    currFileLoop mb cap (k + 1) (some c) f true ⟨S "+++ b/f" ++ '\n' :: r, e⟩ =
      .doneDiff (some { c with files := c.files ++ [f'] }) ⟨r', e'⟩ := by
  simp only [S] at hph
  simp [currFileLoop, readString, takeLine, pfx, List.isPrefixOf, S, hph]

/-- The hunk body of the fragment scenario: one oversized line `x`, one short
line `+z`, then the blank terminator. -/
def c5rest (x : List Char) : List Char :=
  x ++ '\n' :: (S "+z" ++ '\n' :: ('\n' :: []))

theorem c5hunks {x : List Char} (hlen : 16 ≤ x.length) (hn : '\n' ∉ x)
    (hr : '\r' ∉ x) (hd : x.head? ≠ some 'd') (f : File) :
    ∀ fuel, 3 ≤ fuel →
      parseHunksLoop (-1) 16 fuel f 0 false ⟨c5rest x, false⟩ =
        .done { f with content := f.content ++ x.take 16 ++ '\n' ::
          (S "+z" ++ ['\n']), truncated := true } [] false none ⟨[], false⟩ := by
  intro fuel hf
  obtain ⟨k, rfl⟩ : ∃ k, fuel = k + 3 := ⟨fuel - 3, by omega⟩
  rw [c5rest]
  show parseHunksLoop (-1) 16 ((k + 2) + 1) _ _ _ _ = _
  rw [phl_fragline (by decide) hlen hn hr hd (by decide)]
  show parseHunksLoop (-1) 16 ((k + 1) + 1) _ _ _ _ = _
  rw [show (S "+z" ++ '\n' :: ('\n' :: []) : List Char) = S "+z" ++ '\n' :: ('\n' :: []) from rfl]
  rw [phl_content (by decide) (by decide) (by decide) (by decide) (by decide)
    (by decide)]
  rw [phl_blank (by decide)]
  simp [S]


/-- The diff header and hunk body of the fragment scenario. -/
def c5diff (x : List Char) : List Char :=
  S "--- a/f" ++ '\n' :: (S "+++ b/f" ++ '\n' :: c5rest x)

/-- A one-commit stream whose single file has one oversized hunk line `x`. -/
def c5input (x : List Char) : List Char :=
  metaLines (S "h") (S "n") (S "e") (S "1")
    (S "diff --git a/f b/f" ++ '\n' :: c5diff x)

/-- The record emitted for the fragment scenario: the first 16 bytes of the
oversized line (the buffer capacity for `maxBytes = -1`) are appended,
followed by the short line, and the file is marked truncated. -/
def c5file (x : List Char) : File :=
  { filename := S "f", oldFilename := S "f",
    content := x.take 16 ++ '\n' :: (S "+z" ++ ['\n']), truncated := true }

theorem c5files {x : List Char} (hlen : 16 ≤ x.length) (hn : '\n' ∉ x)
    (hr : '\r' ∉ x) (hd : x.head? ≠ some 'd') (c : Commit) :
    ∀ fuel, 2 ≤ fuel →
      currFileLoop (-1) 16 fuel (some c) ({} : File) true ⟨c5diff x, false⟩ =
        .doneDiff (some { c with files := c.files ++ [c5file x] }) ⟨[], false⟩ := by
  intro fuel hf
  obtain ⟨k, rfl⟩ : ∃ k, fuel = k + 2 := ⟨fuel - 2, by omega⟩
  rw [c5diff]
  show currFileLoop (-1) 16 ((k + 1) + 1) _ _ _ _ = _
  rw [cfl_minus_af (-1) 16 (k + 1) _ rfl]
  show currFileLoop (-1) 16 (k + 1) (some c) { oldFilename := S "f" } true
    ⟨S "+++ b/f" ++ '\n' :: c5rest x, false⟩ = _
  rw [cfl_plus_bf _
    (c5hunks hlen hn hr hd { oldFilename := S "f", filename := S "f" }
      ((c5rest x).length + 1) (by simp [c5rest]; omega))]
  simp [c5file, S]

theorem c5core {x : List Char} (hlen : 16 ≤ x.length) (hn : '\n' ∉ x)
    (hr : '\r' ∉ x) (hd : x.head? ≠ some 'd') :
    ∀ fuel, 6 ≤ fuel →
      parseLogLoop (-1) (-1) 16 fuel [] none false ⟨c5input x, false⟩ =
        .ok [some (mkCommit (S "h") (S "n") (S "e") (S "1") [c5file x])] none := by
  intro fuel hf
  obtain ⟨k, rfl⟩ : ∃ k, fuel = (k + 2) + 4 := ⟨fuel - 6, by omega⟩
  rw [c5input, metaSteps (by decide) (by decide) (by decide) (by decide)]
  show parseLogLoop (-1) (-1) 16 ((k + 1) + 1) _ _ _ _ = _
  rw [step_diffline (S "diff --git a/f b/f") 'd' (by decide) rfl
    (by decide) (by decide) (by decide) (by decide) (k + 1) _ _
    (loopDiff_uncapped_done (by decide) ((c5diff x).length)
      (c5files hlen hn hr hd _ _ (by simp [c5diff]; omega)))]
  rw [step_eof]
  simp [mkCommit]


/-- C5 (counterexample): a hunk line of 30 bytes against the 16-byte reader
buffer (`maxBytes = -1`).  The claim says no bytes of the oversized line are
appended, so the file's content would be just the following short line
`"+z\n"`; instead the emitted content starts with the first 16-byte fragment
of the oversized line. -/
theorem c5_first_fragment_is_appended :
    firstFiles (parseLog ⟨c5input (List.replicate 30 'y'), false⟩ (-1) (-1)) =
        [c5file (List.replicate 30 'y')] ∧
      (c5file (List.replicate 30 'y')).truncated = true ∧
      (c5file (List.replicate 30 'y')).content ≠ S "+z\n" := by
  refine ⟨by rfl, by rfl, by decide⟩

/-- C5 (amended): for a hunk line `x` longer than the reader buffer, the
file is marked `truncated = true` and the remaining fragments of the line
are drained and discarded, but the first fragment (the first 16 bytes for
buffer capacity 16) is appended to the content, followed by a newline; no
byte of the line past the first fragment is appended. -/
theorem c5_fragment_drained_first_fragment_kept {x : List Char}
    (hlen : 16 ≤ x.length) (hn : '\n' ∉ x) (hr : '\r' ∉ x)
    (hd : x.head? ≠ some 'd') :
    parseLog ⟨c5input x, false⟩ (-1) (-1) =
      .ok [some (mkCommit (S "h") (S "n") (S "e") (S "1") [c5file x])] none := by
  rw [parseLog]
  rw [show bufCap (-1) = 16 from rfl]
  refine c5core hlen hn hr hd _ ?_
  simp [c5input, metaLines, c5diff, c5rest, S, List.length_append]

/-- C5 (witness): the amended theorem applied to an oversized line of twenty
`'w'` bytes. -/
theorem c5_fragment_drained_first_fragment_kept_witness :
    parseLog ⟨c5input (List.replicate 20 'w'), false⟩ (-1) (-1) =
      .ok [some (mkCommit (S "h") (S "n") (S "e") (S "1")
        [c5file (List.replicate 20 'w')])] none :=
  c5_fragment_drained_first_fragment_kept (by decide) (by decide) (by decide)
    (by decide)

theorem takeLine_length : ∀ {d l r : List Char}, takeLine d = some (l, r) →
    l.length + r.length = d.length ∧ 1 ≤ l.length := by
  intro d
  induction d with
  | nil => intro l r h; simp [takeLine] at h
  | cons c cs ih =>
    intro l r h
    by_cases hc : c = '\n'
    · subst hc
      simp [takeLine] at h
      obtain ⟨rfl, rfl⟩ := h
      simp
      omega
    · simp [takeLine, hc] at h
      match hcs : takeLine cs with
      | none => rw [hcs] at h; simp at h
      | some (l', r') =>
        rw [hcs] at h
        simp at h
        obtain ⟨rfl, rfl⟩ := h
        have := ih hcs
        simp
        omega

theorem readString_spec (s : ByteStream) :
    (readString s).2.2.errAtEnd = s.errAtEnd ∧
      ((readString s).2.1 = none →
        (readString s).2.2.data.length < s.data.length) ∧
      (∀ e, (readString s).2.1 = some e → e = endErr s ∧
        (readString s).2.2.data = []) := by
  rw [readString]
  match h : takeLine s.data with
  | some (l, r) =>
    have := takeLine_length h
    simp
    omega
  | none => simp


theorem readLine_spec {cap : Nat} (hcap : 2 ≤ cap) (s : ByteStream) :
    (readLine cap s).2.2.2.errAtEnd = s.errAtEnd ∧
      ((readLine cap s).2.2.1 = none →
        (readLine cap s).2.2.2.data.length < s.data.length) ∧
      (∀ e, (readLine cap s).2.2.1 = some e → e = endErr s ∧
        (readLine cap s).2.2.2 = s) := by
  rw [readLine]
  match h : takeLine (s.data.take cap) with
  | some (l, r) =>
    have hl := takeLine_length h
    have hle : (s.data.take cap).length ≤ s.data.length := by
      simp [List.length_take]
    simp
    omega
  | none =>
    by_cases h1 : cap ≤ s.data.length
    · by_cases h2 : (s.data.take cap).getLast? = some '\r' <;>
        simp [h1, h2] <;> omega
    · by_cases h3 : s.data = []
      · have hc0 : ¬cap = 0 := by omega
        simp [h1, h3, hc0]
      · have : 0 < s.data.length := List.length_pos.mpr h3
        simp [h1, h3]
        omega


theorem preDrain_spec {cap : Nat} (hcap : 2 ≤ cap) :
    ∀ fuel (f : File) (fr : Bool) (s : ByteStream), s.data.length < fuel →
      preDrain cap fuel f fr s ≠ .out ∧
      (∀ f' s', preDrain cap fuel f fr s = .ok f' s' →
        s'.errAtEnd = s.errAtEnd ∧ s'.data.length ≤ s.data.length) ∧
      (∀ f' e s', preDrain cap fuel f fr s = .fail f' e s' →
        s'.errAtEnd = s.errAtEnd ∧ s'.data.length ≤ s.data.length ∧
        (s.errAtEnd = true → e = .ioError)) := by
  intro fuel
  induction fuel with
  | zero => intro f fr s hs; omega
  | succ k ih =>
    intro f fr s hs
    cases fr with
    | false =>
      refine ⟨by simp [preDrain], ?_, ?_⟩
      · intro f' s' h
        simp [preDrain] at h
        obtain ⟨rfl, rfl⟩ := h
        exact ⟨rfl, le_refl _⟩
      · intro f' e s' h
        simp [preDrain] at h
    | true =>
      have hspec := readLine_spec hcap s
      match hrl : readLine cap s with
      | (lb, fr', none, s1) =>
        rw [hrl] at hspec
        simp at hspec
        have hpd : preDrain cap (k + 1) f true s =
            preDrain cap k { f with truncated := true } fr' s1 := by
          simp [preDrain, hrl]
        have hih := ih { f with truncated := true } fr' s1 (by omega)
        refine ⟨by rw [hpd]; exact hih.1, ?_, ?_⟩
        · intro f' s' h
          rw [hpd] at h
          have := hih.2.1 f' s' h
          exact ⟨by rw [this.1, hspec.1], by omega⟩
        · intro f' e s' h
          rw [hpd] at h
          have := hih.2.2 f' e s' h
          refine ⟨by rw [this.1, hspec.1], by omega, ?_⟩
          intro herr
          exact this.2.2 (by rw [hspec.1, herr])
      | (lb, fr', some e0, s1) =>
        rw [hrl] at hspec
        simp at hspec
        obtain ⟨hpres, he0, hs1⟩ := hspec
        have hpd : preDrain cap (k + 1) f true s =
            .fail { f with truncated := true } e0 s1 := by
          simp [preDrain, hrl]
        refine ⟨by rw [hpd]; simp, ?_, ?_⟩
        · intro f' s' h
          rw [hpd] at h
          simp at h
        · intro f' e s' h
          rw [hpd] at h
          simp at h
          obtain ⟨rfl, rfl, rfl⟩ := h
          subst hs1
          refine ⟨rfl, le_refl _, ?_⟩
          intro herr
          rw [he0]
          simp [endErr, herr]


theorem drainFragments_spec {cap : Nat} (hcap : 2 ≤ cap) :
    ∀ fuel (fr : Bool) (s : ByteStream), s.data.length < fuel →
      drainFragments cap fuel fr s ≠ .out ∧
      (∀ s', drainFragments cap fuel fr s = .ok s' →
        s'.errAtEnd = s.errAtEnd ∧ s'.data.length ≤ s.data.length) ∧
      (∀ e lb fr' s', drainFragments cap fuel fr s = .fail e lb fr' s' →
        s'.errAtEnd = s.errAtEnd ∧ s'.data.length ≤ s.data.length) := by
  intro fuel
  induction fuel with
  | zero => intro fr s hs; omega
  | succ k ih =>
    intro fr s hs
    cases fr with
    | false =>
      refine ⟨by simp [drainFragments], ?_, ?_⟩
      · intro s' h
        simp [drainFragments] at h
        subst h
        exact ⟨rfl, le_refl _⟩
      · intro e lb fr' s' h
        simp [drainFragments] at h
    | true =>
      have hspec := readLine_spec hcap s
      match hrl : readLine cap s with
      | (lb0, fr0, none, s1) =>
        rw [hrl] at hspec
        simp at hspec
        have hpd : drainFragments cap (k + 1) true s =
            drainFragments cap k fr0 s1 := by
          simp [drainFragments, hrl]
        have hih := ih fr0 s1 (by omega)
        refine ⟨by rw [hpd]; exact hih.1, ?_, ?_⟩
        · intro s' h
          rw [hpd] at h
          have := hih.2.1 s' h
          exact ⟨by rw [this.1, hspec.1], by omega⟩
        · intro e lb fr' s' h
          rw [hpd] at h
          have := hih.2.2 e lb fr' s' h
          exact ⟨by rw [this.1, hspec.1], by omega⟩
      | (lb0, fr0, some e0, s1) =>
        rw [hrl] at hspec
        simp at hspec
        obtain ⟨hpres, he0, hs1⟩ := hspec
        have hpd : drainFragments cap (k + 1) true s = .fail e0 lb0 fr0 s1 := by
          simp [drainFragments, hrl]
        refine ⟨by rw [hpd]; simp, ?_, ?_⟩
        · intro s' h
          rw [hpd] at h
          simp at h
        · intro e lb fr' s' h
          rw [hpd] at h
          simp at h
          obtain ⟨rfl, rfl, rfl, rfl⟩ := h
          subst hs1
          exact ⟨rfl, le_refl _⟩


theorem parseHunksLoop_spec {mb : Int} {cap : Nat} (hcap : 2 ≤ cap) :
    ∀ fuel (f : File) (cfc : Int) (fr : Bool) (s : ByteStream),
      s.data.length < fuel →
      parseHunksLoop mb cap fuel f cfc fr s ≠ .out ∧
      (∀ f' lb fr' err s',
        parseHunksLoop mb cap fuel f cfc fr s = .done f' lb fr' err s' →
        s'.errAtEnd = s.errAtEnd ∧ s'.data.length ≤ s.data.length) := by
  intro fuel
  induction fuel with
  | zero => intro f cfc fr s hs; omega
  | succ k ih =>
    intro f cfc fr s hs
    have hpds := preDrain_spec hcap (s.data.length + 1) f fr s (by omega)
    match hpd : preDrain cap (s.data.length + 1) f fr s with
    | .out => exact absurd hpd hpds.1
    | .fail f1 e1 s1 =>
      have h1 := hpds.2.2 f1 e1 s1 hpd
      have hb : parseHunksLoop mb cap (k + 1) f cfc fr s =
          .done f1 [] false (some e1) s1 := by
        simp [parseHunksLoop, hpd]
      refine ⟨by rw [hb]; simp, ?_⟩
      intro f' lb fr' err s' h
      rw [hb] at h
      simp at h
      obtain ⟨rfl, rfl, rfl, rfl, rfl⟩ := h
      exact ⟨h1.1, h1.2.1⟩
    | .ok f1 s1 =>
      have h1 := hpds.2.1 f1 s1 hpd
      have hrls := readLine_spec hcap s1
      match hrl : readLine cap s1 with
      | (lb1, fr1, some e1, s2) =>
        rw [hrl] at hrls
        simp at hrls
        obtain ⟨hpres, he, hs2⟩ := hrls
        cases e1 with
        | eof =>
          have hb : parseHunksLoop mb cap (k + 1) f cfc fr s =
              .done f1 lb1 false (some .eof) s2 := by
            simp [parseHunksLoop, hpd, hrl]
          refine ⟨by rw [hb]; simp, ?_⟩
          intro f' lb fr' err s' h
          rw [hb] at h
          simp at h
          obtain ⟨rfl, rfl, rfl, rfl, rfl⟩ := h
          subst hs2
          exact ⟨by rw [hpres, h1.1], by omega⟩
        | ioError =>
          have hb : parseHunksLoop mb cap (k + 1) f cfc fr s =
              .done f1 [] false (some .ioError) s2 := by
            simp [parseHunksLoop, hpd, hrl]
          refine ⟨by rw [hb]; simp, ?_⟩
          intro f' lb fr' err s' h
          rw [hb] at h
          simp at h
          obtain ⟨rfl, rfl, rfl, rfl, rfl⟩ := h
          subst hs2
          exact ⟨by rw [hpres, h1.1], by omega⟩
        | wrapped e2 =>
          have hb : parseHunksLoop mb cap (k + 1) f cfc fr s =
              .done f1 [] false (some (.wrapped e2)) s2 := by
            simp [parseHunksLoop, hpd, hrl]
          refine ⟨by rw [hb]; simp, ?_⟩
          intro f' lb fr' err s' h
          rw [hb] at h
          simp at h
          obtain ⟨rfl, rfl, rfl, rfl, rfl⟩ := h
          subst hs2
          exact ⟨by rw [hpres, h1.1], by omega⟩
      | (lb1, fr1, none, s2) =>
        rw [hrl] at hrls
        simp at hrls
        obtain ⟨hpres, hlt⟩ := hrls
        by_cases hemp : lb1 = []
        · have hb : parseHunksLoop mb cap (k + 1) f cfc fr s =
              .done f1 lb1 false none s2 := by
            simp [parseHunksLoop, hpd, hrl, hemp]
          refine ⟨by rw [hb]; simp, ?_⟩
          intro f' lb fr' err s' h
          rw [hb] at h
          simp at h
          obtain ⟨rfl, rfl, rfl, rfl, rfl⟩ := h
          exact ⟨by rw [hpres, h1.1], by omega⟩
        · by_cases hhd : lb1.head? = some 'd'
          · have hb : parseHunksLoop mb cap (k + 1) f cfc fr s =
                .done f1 lb1 fr1 none s2 := by
              simp [parseHunksLoop, hpd, hrl, hemp, hhd]
            refine ⟨by rw [hb]; simp, ?_⟩
            intro f' lb fr' err s' h
            rw [hb] at h
            simp at h
            obtain ⟨rfl, rfl, rfl, rfl, rfl⟩ := h
            exact ⟨by rw [hpres, h1.1], by omega⟩
          · by_cases hbc : mb > -1 ∧ cfc ≥ mb
            · have hb : parseHunksLoop mb cap (k + 1) f cfc fr s =
                  parseHunksLoop mb cap k { f1 with truncated := true } cfc
                    fr1 s2 := by
                simp [parseHunksLoop, hpd, hrl, hemp, hhd, hbc]
              have hih := ih { f1 with truncated := true } cfc fr1 s2 (by omega)
              refine ⟨by rw [hb]; exact hih.1, ?_⟩
              intro f' lb fr' err s' h
              rw [hb] at h
              have := hih.2 f' lb fr' err s' h
              exact ⟨by rw [this.1, hpres, h1.1], by omega⟩
            · by_cases hfr : fr1 = true
              · subst hfr
                have hdfs := drainFragments_spec hcap (s2.data.length + 1)
                  true s2 (by omega)
                match hdf : drainFragments cap (s2.data.length + 1) true s2 with
                | .out => exact absurd hdf hdfs.1
                | .fail e3 lb3 fr3 s3 =>
                  have h3 := hdfs.2.2 e3 lb3 fr3 s3 hdf
                  have hb : parseHunksLoop mb cap (k + 1) f cfc fr s =
                      .done { f1 with truncated := true } lb3 fr3
                        (some (.wrapped e3)) s3 := by
                    simp [parseHunksLoop, hpd, hrl, hemp, hhd, hbc, hdf]
                  refine ⟨by rw [hb]; simp, ?_⟩
                  intro f' lb fr' err s' h
                  rw [hb] at h
                  simp at h
                  obtain ⟨rfl, rfl, rfl, rfl, rfl⟩ := h
                  exact ⟨by rw [h3.1, hpres, h1.1], by omega⟩
                | .ok s3 =>
                  have h3 := hdfs.2.1 s3 hdf
                  have hb : parseHunksLoop mb cap (k + 1) f cfc fr s =
                      parseHunksLoop mb cap k
                        { f1 with truncated := true, content := f1.content ++ lb1 ++ ['\n'] } cfc false s3 := by
                    simp [parseHunksLoop, hpd, hrl, hemp, hhd, hbc, hdf]
                  have hih := ih
                    { f1 with truncated := true, content := f1.content ++ lb1 ++ ['\n'] } cfc false s3
                    (by omega)
                  refine ⟨by rw [hb]; exact hih.1, ?_⟩
                  intro f' lb fr' err s' h
                  rw [hb] at h
                  have := hih.2 f' lb fr' err s' h
                  exact ⟨by rw [this.1, h3.1, hpres, h1.1], by omega⟩
              · have hfr0 : fr1 = false := by simpa using hfr
                subst hfr0
                have hb : parseHunksLoop mb cap (k + 1) f cfc fr s =
                    parseHunksLoop mb cap k
                      { f1 with content := f1.content ++ lb1 ++ ['\n'] } cfc
                      false s2 := by
                  simp [parseHunksLoop, hpd, hrl, hemp, hhd, hbc]
                have hih := ih { f1 with content := f1.content ++ lb1 ++ ['\n'] }
                  cfc false s2 (by omega)
                refine ⟨by rw [hb]; exact hih.1, ?_⟩
                intro f' lb fr' err s' h
                rw [hb] at h
                have := hih.2 f' lb fr' err s' h
                exact ⟨by rw [this.1, hpres, h1.1], by omega⟩


/-- Invariant of a `currFileLoop` result relative to the input stream. -/
def FileRok (sl : Nat) (eab : Bool) (r : FileR) : Prop :=
  r ≠ .out ∧
    (∀ cc' s', r = .doneDiff cc' s' → s'.errAtEnd = eab ∧ s'.data.length ≤ sl) ∧
    (∀ cc' s', r = .nextFile cc' s' → s'.errAtEnd = eab ∧ s'.data.length < sl)

theorem currFileLoop_spec {mb : Int} {cap : Nat} (hcap : 2 ≤ cap) :
    ∀ fuel (cc : Option Commit) (f : File) (pr : Bool) (s : ByteStream),
      s.data.length < fuel →
      FileRok s.data.length s.errAtEnd (currFileLoop mb cap fuel cc f pr s) := by
  intro fuel
  induction fuel with
  | zero => intro cc f pr s hs; omega
  | succ k ih =>
    intro cc f pr s hs
    have hrss := readString_spec s
    match hrs : readString s with
    | (l, some e, s1) =>
      rw [hrs] at hrss
      simp at hrss
      obtain ⟨hpres, he, hdat⟩ := hrss
      cases e with
      | eof =>
        have hb : currFileLoop mb cap (k + 1) cc f pr s = .doneDiff cc s1 := by
          simp [currFileLoop, hrs]
        rw [hb]
        refine ⟨by simp, ?_, ?_⟩
        · intro cc' s' h
          simp at h
          obtain ⟨rfl, rfl⟩ := h
          simp [hpres, hdat]
        · intro cc' s' h
          simp at h
      | ioError =>
        have hb : currFileLoop mb cap (k + 1) cc f pr s = .errRet .ioError := by
          simp [currFileLoop, hrs]
        rw [hb]
        refine ⟨by simp, by intro cc' s' h; simp at h, by intro cc' s' h; simp at h⟩
      | wrapped e2 =>
        have hb : currFileLoop mb cap (k + 1) cc f pr s =
            .errRet (.wrapped e2) := by
          simp [currFileLoop, hrs]
        rw [hb]
        refine ⟨by simp, by intro cc' s' h; simp at h, by intro cc' s' h; simp at h⟩
    | (l, none, s1) =>
      rw [hrs] at hrss
      simp at hrss
      obtain ⟨hpres, hlt⟩ := hrss
      have hstep : ∀ (f' : File) (pr' : Bool),
          FileRok s.data.length s.errAtEnd (currFileLoop mb cap k cc f' pr' s1) := by
        intro f' pr'
        have := ih cc f' pr' s1 (by omega)
        refine ⟨this.1, ?_, ?_⟩
        · intro cc' s' h
          have := this.2.1 cc' s' h
          exact ⟨by rw [this.1, hpres], by omega⟩
        · intro cc' s' h
          have := this.2.2 cc' s' h
          exact ⟨by rw [this.1, hpres], by omega⟩
      have hcr : FileRok s.data.length s.errAtEnd .crashed := by
        refine ⟨by simp, by intro cc' s' h; simp at h, by intro cc' s' h; simp at h⟩
      have herr : ∀ e0, FileRok s.data.length s.errAtEnd (.errRet e0) := by
        intro e0
        refine ⟨by simp, by intro cc' s' h; simp at h, by intro cc' s' h; simp at h⟩
      by_cases h1 : l = ['\n']
      · cases cc with
        | none =>
          have hb : currFileLoop mb cap (k + 1) none f pr s = .crashed := by
            simp [currFileLoop, hrs, h1]
          rw [hb]; exact hcr
        | some c =>
          have hb : currFileLoop mb cap (k + 1) (some c) f pr s =
              .doneDiff (some { c with files := c.files ++ [f] }) s1 := by
            simp [currFileLoop, hrs, h1]
          rw [hb]
          refine ⟨by simp, ?_, by intro cc' s' h; simp at h⟩
          intro cc' s' h
          simp at h
          obtain ⟨rfl, rfl⟩ := h
          exact ⟨hpres, by omega⟩
      · by_cases h2 : pfx "diff --git" l = true
        · have hb : currFileLoop mb cap (k + 1) cc f pr s = .nextFile cc s1 := by
            simp [currFileLoop, hrs, h1, h2]
          rw [hb]
          refine ⟨by simp, by intro cc' s' h; simp at h, ?_⟩
          intro cc' s' h
          simp at h
          obtain ⟨rfl, rfl⟩ := h
          exact ⟨hpres, by omega⟩
        · by_cases h3 : pfx "old mode" l = true
          · have hb : currFileLoop mb cap (k + 1) cc f pr s =
                currFileLoop mb cap k cc f pr s1 := by
              simp [currFileLoop, hrs, h1, h2, h3]
            rw [hb]; exact hstep _ _
          · by_cases h4 : pfx "new mode" l = true
            · have hb : currFileLoop mb cap (k + 1) cc f pr s =
                  currFileLoop mb cap k cc f pr s1 := by
                simp [currFileLoop, hrs, h1, h2, h3, h4]
              rw [hb]; exact hstep _ _
            · by_cases h5 : pfx "index" l = true
              · have hb : currFileLoop mb cap (k + 1) cc f pr s =
                    currFileLoop mb cap k cc f pr s1 := by
                  simp [currFileLoop, hrs, h1, h2, h3, h4, h5]
                rw [hb]; exact hstep _ _
              · by_cases h6 : pfx "similarity index" l = true
                · have hb : currFileLoop mb cap (k + 1) cc f pr s =
                      currFileLoop mb cap k cc f pr s1 := by
                    simp [currFileLoop, hrs, h1, h2, h3, h4, h5, h6]
                  rw [hb]; exact hstep _ _
                · by_cases h7 : pfx "dissimilarity index" l = true
                  · have hb : currFileLoop mb cap (k + 1) cc f pr s =
                        currFileLoop mb cap k cc f pr s1 := by
                      simp [currFileLoop, hrs, h1, h2, h3, h4, h5, h6, h7]
                    rw [hb]; exact hstep _ _
                  · by_cases h8 : pfx "rename from " l = true
                    · have hb : currFileLoop mb cap (k + 1) cc f pr s =
                          currFileLoop mb cap k cc
                            { f with oldFilename := (l.take (l.length - 1)).drop 11 }
                            pr s1 := by
                        simp [currFileLoop, hrs, h1, h2, h3, h4, h5, h6, h7, h8]
                      rw [hb]; exact hstep _ _
                    · by_cases h9 : pfx "rename to " l = true
                      · have hb : currFileLoop mb cap (k + 1) cc f pr s =
                            currFileLoop mb cap k cc
                              { f with filename := (l.take (l.length - 1)).drop 9 }
                              false s1 := by
                          simp [currFileLoop, hrs, h1, h2, h3, h4, h5, h6, h7, h8, h9]
                        rw [hb]; exact hstep _ _
                      · by_cases h10 : pfx "copy from " l = true
                        · have hb : currFileLoop mb cap (k + 1) cc f pr s =
                              currFileLoop mb cap k cc
                                { f with oldFilename := (l.take (l.length - 1)).drop 9 }
                                pr s1 := by
                            simp [currFileLoop, hrs, h1, h2, h3, h4, h5, h6, h7, h8,
                              h9, h10]
                          rw [hb]; exact hstep _ _
                        · by_cases h11 : pfx "copy to " l = true
                          · have hb : currFileLoop mb cap (k + 1) cc f pr s =
                                currFileLoop mb cap k cc
                                  { f with filename := (l.take (l.length - 1)).drop 7 }
                                  false s1 := by
                              simp [currFileLoop, hrs, h1, h2, h3, h4, h5, h6, h7, h8,
                                h9, h10, h11]
                            rw [hb]; exact hstep _ _
                          · by_cases h12 : pfx "new file" l = true
                            · have hb : currFileLoop mb cap (k + 1) cc f pr s =
                                  currFileLoop mb cap k cc
                                    { f with isCreated := true } pr s1 := by
                                simp [currFileLoop, hrs, h1, h2, h3, h4, h5, h6, h7,
                                  h8, h9, h10, h11, h12]
                              rw [hb]; exact hstep _ _
                            · by_cases h13 : pfx "deleted file" l = true
                              · have hb : currFileLoop mb cap (k + 1) cc f pr s =
                                    currFileLoop mb cap k cc
                                      { f with isDeleted := true } pr s1 := by
                                  simp [currFileLoop, hrs, h1, h2, h3, h4, h5, h6, h7,
                                    h8, h9, h10, h11, h12, h13]
                                rw [hb]; exact hstep _ _
                              · by_cases h14 : pfx "--- " l = true
                                · have hb : currFileLoop mb cap (k + 1) cc f pr s =
                                      (if pr = true ∧ f.isDeleted = true then
                                        (if 2 ≤ ((l.take (l.length - 1)).drop 4).length then
                                          currFileLoop mb cap k cc
                                            { f with filename := ((l.take (l.length - 1)).drop 4).drop 2 }
                                            pr s1
                                        else .crashed)
                                      else if pr = true ∧
                                          pfx "a/" ((l.take (l.length - 1)).drop 4) = true then
                                        currFileLoop mb cap k cc
                                          { f with oldFilename := ((l.take (l.length - 1)).drop 4).drop 2 }
                                          pr s1
                                      else currFileLoop mb cap k cc f pr s1) := by
                                    simp [currFileLoop, hrs, h1, h2, h3, h4, h5, h6,
                                      h7, h8, h9, h10, h11, h12, h13, h14]
                                  rw [hb]
                                  split
                                  · split
                                    · exact hstep _ _
                                    · exact hcr
                                  · split
                                    · exact hstep _ _
                                    · exact hstep _ _
                                · by_cases h15 : pfx "+++ " l = true
                                  · have hphs := @parseHunksLoop_spec mb cap hcap
                                      (s1.data.length + 1)
                                      (if pr = true ∧ pfx "b/" ((l.take (l.length - 1)).drop 4) = true then
                                        { f with filename := (l.take (l.length - 1)).drop 6 }
                                      else f) 0 false s1 (by omega)
                                    match hph : parseHunksLoop mb cap (s1.data.length + 1)
                                        (if pr = true ∧ pfx "b/" ((l.take (l.length - 1)).drop 4) = true then
                                          { f with filename := (l.take (l.length - 1)).drop 6 }
                                        else f) 0 false s1 with
                                    | .out => exact absurd hph hphs.1
                                    | .done f2 lb2 fr2 err2 s2 =>
                                      have h2sp := hphs.2 f2 lb2 fr2 err2 s2 hph
                                      match err2 with
                                      | some .eof =>
                                        cases cc with
                                        | none =>
                                          have hb : currFileLoop mb cap (k + 1) none f pr s = .crashed := by
                                            simp [currFileLoop, hrs, h1, h2, h3, h4, h5,
                                              h6, h7, h8, h9, h10, h11, h12, h13, h14,
                                              h15, hph]
                                          rw [hb]; exact hcr
                                        | some c =>
                                          have hb : currFileLoop mb cap (k + 1) (some c) f pr s =
                                              .doneDiff (some { c with files := c.files ++ [f2] }) s2 := by
                                            simp [currFileLoop, hrs, h1, h2, h3, h4, h5,
                                              h6, h7, h8, h9, h10, h11, h12, h13, h14,
                                              h15, hph]
                                          rw [hb]
                                          refine ⟨by simp, ?_, by intro cc' s' h; simp at h⟩
                                          intro cc' s' h
                                          simp at h
                                          obtain ⟨rfl, rfl⟩ := h
                                          exact ⟨by rw [h2sp.1, hpres], by omega⟩
                                      | some .ioError =>
                                        have hb : currFileLoop mb cap (k + 1) cc f pr s =
                                            .errRet .ioError := by
                                          simp [currFileLoop, hrs, h1, h2, h3, h4, h5,
                                            h6, h7, h8, h9, h10, h11, h12, h13, h14,
                                            h15, hph]
                                        rw [hb]; exact herr _
                                      | some (.wrapped e2) =>
                                        have hb : currFileLoop mb cap (k + 1) cc f pr s =
                                            .errRet (.wrapped e2) := by
                                          simp [currFileLoop, hrs, h1, h2, h3, h4, h5,
                                            h6, h7, h8, h9, h10, h11, h12, h13, h14,
                                            h15, hph]
                                        rw [hb]; exact herr _
                                      | none =>
                                        cases cc with
                                        | none =>
                                          have hb : currFileLoop mb cap (k + 1) none f pr s = .crashed := by
                                            simp [currFileLoop, hrs, h1, h2, h3, h4, h5,
                                              h6, h7, h8, h9, h10, h11, h12, h13, h14,
                                              h15, hph]
                                          rw [hb]; exact hcr
                                        | some c =>
                                          by_cases hlb : lb2 = []
                                          · have hb : currFileLoop mb cap (k + 1) (some c) f pr s =
                                                .doneDiff (some { c with files := c.files ++ [f2] }) s2 := by
                                              simp [currFileLoop, hrs, h1, h2, h3, h4,
                                                h5, h6, h7, h8, h9, h10, h11, h12, h13,
                                                h14, h15, hph, hlb]
                                            rw [hb]
                                            refine ⟨by simp, ?_, by intro cc' s' h; simp at h⟩
                                            intro cc' s' h
                                            simp at h
                                            obtain ⟨rfl, rfl⟩ := h
                                            exact ⟨by rw [h2sp.1, hpres], by omega⟩
                                          · have hdfs := @drainFragments_spec cap hcap
                                              (s2.data.length + 1) fr2 s2 (by omega)
                                            match hdf : drainFragments cap (s2.data.length + 1) fr2 s2 with
                                            | .out => exact absurd hdf hdfs.1
                                            | .fail e3 lb3 fr3 s3 =>
                                              have hb : currFileLoop mb cap (k + 1) (some c) f pr s =
                                                  .errRet (.wrapped e3) := by
                                                simp [currFileLoop, hrs, h1, h2, h3, h4,
                                                  h5, h6, h7, h8, h9, h10, h11, h12,
                                                  h13, h14, h15, hph, hlb, hdf]
                                              rw [hb]; exact herr _
                                            | .ok s3 =>
                                              have h3sp := hdfs.2.1 s3 hdf
                                              have hb : currFileLoop mb cap (k + 1) (some c) f pr s =
                                                  .nextFile (some { c with files := c.files ++ [f2] }) s3 := by
                                                simp [currFileLoop, hrs, h1, h2, h3, h4,
                                                  h5, h6, h7, h8, h9, h10, h11, h12,
                                                  h13, h14, h15, hph, hlb, hdf]
                                              rw [hb]
                                              refine ⟨by simp, by intro cc' s' h; simp at h, ?_⟩
                                              intro cc' s' h
                                              simp at h
                                              obtain ⟨rfl, rfl⟩ := h
                                              exact ⟨by rw [h3sp.1, h2sp.1, hpres], by omega⟩
                                  · have hb : currFileLoop mb cap (k + 1) cc f pr s =
                                        currFileLoop mb cap k cc f pr s1 := by
                                      simp [currFileLoop, hrs, h1, h2, h3, h4, h5, h6,
                                        h7, h8, h9, h10, h11, h12, h13, h14, h15]
                                    rw [hb]; exact hstep _ _


theorem loopDiff_spec {mf mb : Int} {cap : Nat} (hcap : 2 ≤ cap) :
    ∀ fuel (cc : Option Commit) (s : ByteStream), s.data.length < fuel →
      loopDiff mf mb cap fuel cc s ≠ .out ∧
      (∀ cc' s', loopDiff mf mb cap fuel cc s = .done cc' s' →
        s'.errAtEnd = s.errAtEnd ∧ s'.data.length ≤ s.data.length) := by
  intro fuel
  induction fuel with
  | zero => intro cc s hs; omega
  | succ k ih =>
    intro cc s hs
    have hcfl := fun (cc0 : Option Commit) =>
      @currFileLoop_spec mb cap hcap (s.data.length + 1) cc0 ({} : File) true s
        (by omega)
    have hmain : ∀ cc0 : Option Commit,
        (match currFileLoop mb cap (s.data.length + 1) cc0 {} true s with
          | FileR.out => DiffR.out
          | FileR.crashed => DiffR.crashed
          | FileR.errRet e => DiffR.errRet e
          | FileR.doneDiff cc1 s1 => DiffR.done cc1 s1
          | FileR.nextFile cc1 s1 => loopDiff mf mb cap k cc1 s1) ≠ DiffR.out ∧
        (∀ cc' s',
          (match currFileLoop mb cap (s.data.length + 1) cc0 {} true s with
            | FileR.out => DiffR.out
            | FileR.crashed => DiffR.crashed
            | FileR.errRet e => DiffR.errRet e
            | FileR.doneDiff cc1 s1 => DiffR.done cc1 s1
            | FileR.nextFile cc1 s1 => loopDiff mf mb cap k cc1 s1) =
              DiffR.done cc' s' →
          s'.errAtEnd = s.errAtEnd ∧ s'.data.length ≤ s.data.length) := by
      intro cc0
      match hcf : currFileLoop mb cap (s.data.length + 1) cc0 {} true s with
      | .out => exact absurd hcf (hcfl cc0).1
      | .crashed => exact ⟨by simp, by intro cc' s' h; simp at h⟩
      | .errRet e => exact ⟨by simp, by intro cc' s' h; simp at h⟩
      | .doneDiff cc1 s1 =>
        have := (hcfl cc0).2.1 cc1 s1 hcf
        refine ⟨by simp, ?_⟩
        intro cc' s' h
        simp at h
        obtain ⟨rfl, rfl⟩ := h
        exact this
      | .nextFile cc1 s1 =>
        have hst := (hcfl cc0).2.2 cc1 s1 hcf
        have hih := ih cc1 s1 (by omega)
        refine ⟨hih.1, ?_⟩
        intro cc' s' h
        have := hih.2 cc' s' h
        exact ⟨by rw [this.1, hst.1], by omega⟩
    by_cases hmf : mf > -1
    · cases cc with
      | none =>
        have hb : loopDiff mf mb cap (k + 1) none s = .crashed := by
          simp [loopDiff, hmf]
        rw [hb]
        exact ⟨by simp, by intro cc' s' h; simp at h⟩
      | some c =>
        by_cases hct : (c.files.length : Int) ≥ mf
        · have hb : loopDiff mf mb cap (k + 1) (some c) s =
              .done (some c) (drain s) := by
            simp [loopDiff, hmf, hct]
          rw [hb]
          refine ⟨by simp, ?_⟩
          intro cc' s' h
          simp at h
          obtain ⟨rfl, rfl⟩ := h
          simp [drain]
        · have hb : loopDiff mf mb cap (k + 1) (some c) s =
              (match currFileLoop mb cap (s.data.length + 1) (some c) {} true s with
                | FileR.out => DiffR.out
                | FileR.crashed => DiffR.crashed
                | FileR.errRet e => DiffR.errRet e
                | FileR.doneDiff cc1 s1 => DiffR.done cc1 s1
                | FileR.nextFile cc1 s1 => loopDiff mf mb cap k cc1 s1) := by
            simp [loopDiff, hmf, hct]
          rw [hb]
          exact hmain (some c)
    · have hb : loopDiff mf mb cap (k + 1) cc s =
          (match currFileLoop mb cap (s.data.length + 1) cc {} true s with
            | FileR.out => DiffR.out
            | FileR.crashed => DiffR.crashed
            | FileR.errRet e => DiffR.errRet e
            | FileR.doneDiff cc1 s1 => DiffR.done cc1 s1
            | FileR.nextFile cc1 s1 => loopDiff mf mb cap k cc1 s1) := by
        simp [loopDiff, hmf]
      rw [hb]
      exact hmain cc


theorem parseLogLoop_err {mf mb : Int} {cap : Nat} (hcap : 2 ≤ cap) :
    ∀ fuel (cs : List (Option Commit)) (cc : Option Commit) (hp : Bool)
      (s : ByteStream), s.data.length < fuel → s.errAtEnd = true →
      parseLogLoop mf mb cap fuel cs cc hp s = .crashed ∨
        ∃ cs' e, parseLogLoop mf mb cap fuel cs cc hp s = .ok cs' (some e) := by
  intro fuel
  induction fuel with
  | zero => intro cs cc hp s hs he; omega
  | succ k ih =>
    intro cs cc hp s hs he
    have hrss := readString_spec s
    match hrs : readString s with
    | (l, some e1, s1) =>
      rw [hrs] at hrss
      simp at hrss
      obtain ⟨hpres, hend, hdat⟩ := hrss
      have he1 : e1 = .ioError := by rw [hend]; simp [endErr, he]
      subst he1
      right
      refine ⟨cs, .ioError, ?_⟩
      simp [parseLogLoop, hrs]
    | (l, none, s1) =>
      rw [hrs] at hrss
      simp at hrss
      obtain ⟨hpres, hlt⟩ := hrss
      have he1 : s1.errAtEnd = true := by rw [hpres, he]
      have hstep : ∀ (cs' : List (Option Commit)) (cc' : Option Commit)
          (hp' : Bool),
          parseLogLoop mf mb cap k cs' cc' hp' s1 = .crashed ∨
            ∃ cs2 e2, parseLogLoop mf mb cap k cs' cc' hp' s1 =
              .ok cs2 (some e2) :=
        fun cs' cc' hp' => ih cs' cc' hp' s1 (by omega) he1
      match hh : (stripNL l).head? with
      | none =>
        left
        simp [parseLogLoop, hrs, hh]
      | some c0 =>
        by_cases hc : c0 = 'c'
        · subst hc
          by_cases hlen : 2 ≤ (stripNL l).length
          · have hb : parseLogLoop mf mb cap (k + 1) cs cc hp s =
                parseLogLoop mf mb cap k (if hp then cs ++ [cc] else cs)
                  (some { hash := (stripNL l).drop 2 }) hp s1 := by
              simp [parseLogLoop, hrs, hh, hlen]
            rw [hb]
            exact hstep _ _ _
          · left
            simp [parseLogLoop, hrs, hh, hlen]
        · by_cases ha : c0 = 'a'
          · subst ha
            cases cc with
            | none =>
              left
              simp [parseLogLoop, hrs, hh, hc]
            | some c =>
              by_cases hlen : 2 ≤ (stripNL l).length
              · have hb : parseLogLoop mf mb cap (k + 1) cs (some c) hp s =
                    parseLogLoop mf mb cap k cs
                      (some { c with authorName := (stripNL l).drop 2 }) true s1 := by
                  simp [parseLogLoop, hrs, hh, hc, hlen]
                rw [hb]
                exact hstep _ _ _
              · left
                simp [parseLogLoop, hrs, hh, hc, hlen]
          · by_cases hm : c0 = 'm'
            · subst hm
              cases cc with
              | none =>
                left
                simp [parseLogLoop, hrs, hh, hc, ha]
              | some c =>
                by_cases hlen : 2 ≤ (stripNL l).length
                · have hb : parseLogLoop mf mb cap (k + 1) cs (some c) hp s =
                      parseLogLoop mf mb cap k cs
                        (some { c with authorEmail := (stripNL l).drop 2 }) hp s1 := by
                    simp [parseLogLoop, hrs, hh, hc, ha, hlen]
                  rw [hb]
                  exact hstep _ _ _
                · left
                  simp [parseLogLoop, hrs, hh, hc, ha, hlen]
            · by_cases ht : c0 = 't'
              · subst ht
                cases cc with
                | none =>
                  left
                  simp [parseLogLoop, hrs, hh, hc, ha, hm]
                | some c =>
                  by_cases hlen : 2 ≤ (stripNL l).length
                  · have hb : parseLogLoop mf mb cap (k + 1) cs (some c) hp s =
                        parseLogLoop mf mb cap k cs
                          (some { c with timestamp := (stripNL l).drop 2 }) hp s1 := by
                      simp [parseLogLoop, hrs, hh, hc, ha, hm, hlen]
                    rw [hb]
                    exact hstep _ _ _
                  · left
                    simp [parseLogLoop, hrs, hh, hc, ha, hm, hlen]
              · have hlds := @loopDiff_spec mf mb cap hcap (s1.data.length + 1)
                  cc s1 (by omega)
                match hld : loopDiff mf mb cap (s1.data.length + 1) cc s1 with
                | .out => exact absurd hld hlds.1
                | .crashed =>
                  left
                  simp [parseLogLoop, hrs, hh, hc, ha, hm, ht, hld]
                | .errRet e2 =>
                  right
                  refine ⟨cs, e2, ?_⟩
                  simp [parseLogLoop, hrs, hh, hc, ha, hm, ht, hld]
                | .done cc2 s2 =>
                  have hd2 := hlds.2 cc2 s2 hld
                  have hb : parseLogLoop mf mb cap (k + 1) cs cc hp s =
                      parseLogLoop mf mb cap k (cs ++ [cc2]) cc2 false s2 := by
                    simp [parseLogLoop, hrs, hh, hc, ha, hm, ht, hld]
                  rw [hb]
                  exact ih (cs ++ [cc2]) cc2 false s2 (by omega)
                    (by rw [hd2.1, he1])

/-- C10 (counterexample): a stream whose underlying read fails with a non-EOF
I/O error, but whose data holds a malformed blank line; the parser panics on
the blank line before ever reaching the failing read, so it returns neither
the error nor any commits, contradicting the claim that it always returns
both the error and the commits assembled before the failure. -/
theorem c10_panic_preempts_error :
    parseLog ⟨S "\n", true⟩ 10 1000 = .crashed := by rfl

/-- C10 (amended): for every input stream whose underlying reads fail with a
non-EOF I/O error once the data is exhausted, and any caps, the parser either
panics on malformed content before reaching the failure, or aborts at the
failing read and returns a non-nil error together with the commit list
accumulated so far — it never returns a nil error on such a stream. -/
theorem c10_error_always_surfaced (s : ByteStream) (mf mb : Int)
    (he : s.errAtEnd = true) :
    parseLog s mf mb = .crashed ∨
      ∃ cs e, parseLog s mf mb = .ok cs (some e) := by
  rw [parseLog]
  refine parseLogLoop_err ?_ _ [] none false s (by omega) he
  have := Nat.le_max_left 16 mb.toNat
  simp [bufCap]

/-- C10 (witness): the amended theorem applied to a stream holding one
complete commit followed by the start of a second commit and then the I/O
failure; this parse in fact returns the first commit together with the
error. -/
theorem c10_error_always_surfaced_witness :
    parseLog ⟨S "c h1\na n\nm e\nt 1\nx\n\nc h2\n", true⟩ 10 1000 = .crashed ∨
      ∃ cs e, parseLog ⟨S "c h1\na n\nm e\nt 1\nx\n\nc h2\n", true⟩ 10 1000 =
        .ok cs (some e) :=
  c10_error_always_surfaced ⟨S "c h1\na n\nm e\nt 1\nx\n\nc h2\n", true⟩ 10 1000 rfl

/-- On the witness stream the parser indeed aborts at the failing read and
returns the one fully assembled commit together with the I/O error (the
empty file record is the blank-line append of `currFileLoop`). -/
theorem errAtEnd_returns_partial_commits :
    parseLog ⟨S "c h1\na n\nm e\nt 1\nx\n\nc h2\n", true⟩ 10 1000 =
      .ok [some (mkCommit (S "h1") (S "n") (S "e") (S "1") [{}])]
        (some .ioError) := by rfl

end OutputParser
